import Mathlib

/-
Verification of the employment-history chronology core of the ATS checker
(`ats-checker.js`).

Modelling conventions (shallow embedding):

* A calendar point at month granularity (the JS `new Date(year, month)`
  where only year/month are used) is modelled as its month index
  `year * 12 + month : Int`.  The JS `Date` constructor normalises
  out-of-range months (`new Date(2020, 12)` is January 2021), which the
  linear index represents exactly; comparison of `Date` values coincides
  with comparison of indices, and `calculateDuration` in the source,
  `(endYear - startYear) * 12 + (endMonth - startMonth)`, is exactly
  index subtraction.
* Text is modelled as `List Char` (and `String` for stored labels).
* The current date (`new Date()` for "present"/"current") is an explicit
  `now : Int` parameter.
* JS string truthiness (`null`/`""` falsy) is modelled by `truthy`/`jsOr`
  on `Option String`.
* `Array.prototype.sort` is stable (ECMAScript 2019+); it is modelled by
  `List.insertionSort`, which is a stable sort with the same comparator,
  hence produces the same list.
* The phase-1 dedup `Map` keyed by the string
  `` `${start.getTime()}-${end.getTime()}-${title}` `` is modelled as an
  insertion-ordered association list keyed by the triple
  `(start, end, title-or-"unknown")`, which is the intended content of
  that string key.  Likewise the phase-2 grouping object keyed by company
  name is an insertion-ordered association list, matching JS object key
  order for the non-integer-like company strings produced here.
* `originalText`/`context` fields are omitted from the record: no modelled
  computation ever reads them.
-/

/-- One inferred employment stint, as built by the extractor
(`startDate`/`endDate` are month indices, `duration` is the stored
`calculateDuration` result in months). -/
structure Period where
  startDate : Int
  endDate : Int
  duration : Int
  jobTitle : Option String
  company : Option String
deriving DecidableEq

/-- JS truthiness of an optional string field: `null` and `""` are falsy. -/
def truthy : Option String → Bool
  | none => false
  | some s => !s.data.isEmpty

/-- The JS idiom `field || defaultValue` on an optional string. -/
def jsOr (o : Option String) (d : String) : String :=
  match o with
  | none => d
  | some s => if s.data.isEmpty then d else s

/-- Phase-1 dedup key: `(startDate, endDate, jobTitle || "unknown")`
(source line 899). -/
def p1Key (p : Period) : Int × Int × String :=
  (p.startDate, p.endDate, jsOr p.jobTitle "unknown")

/-- Company grouping key: `period.company || 'unknown'` (source line 919). -/
def companyKey (p : Period) : String := jsOr p.company "unknown"

/-- `calculateDuration` (source lines 1017-1021): on month indices the
year/month difference formula is exactly subtraction. -/
def calculateDuration (s e : Int) : Int := e - s

/-- Comparator of `uniquePeriods.sort((a, b) => a.startDate - b.startDate)`. -/
def startLE (a b : Period) : Prop := a.startDate ≤ b.startDate

instance : DecidableRel startLE := fun a b => Int.decLe a.startDate b.startDate

instance : IsTotal Period startLE := ⟨fun a b => Int.le_total a.startDate b.startDate⟩

instance : IsTrans Period startLE := ⟨fun _ _ _ h h' => Int.le_trans h h'⟩

/-- Comparator of `companyPeriods.sort((a, b) => b.duration - a.duration)`
(duration descending). -/
def durGE (a b : Period) : Prop := b.duration ≤ a.duration

instance : DecidableRel durGE := fun a b => Int.decLe b.duration a.duration

instance : IsTotal Period durGE := ⟨fun a b => Int.le_total b.duration a.duration⟩

instance : IsTrans Period durGE := ⟨fun _ _ _ h h' => Int.le_trans h' h⟩

/-- The loop of `calculateTotalExperience` (source lines 1030-1044):
`cE` is `currentEndDate`; a period starting after `cE` contributes its
full duration, a period merely extending past `cE` contributes only the
tail, a fully covered period contributes nothing. -/
def sweep : Int → List Period → Int
  | _, [] => 0
  | cE, p :: ps =>
    if cE < p.startDate then calculateDuration p.startDate p.endDate + sweep p.endDate ps
    else if cE < p.endDate then calculateDuration cE p.endDate + sweep p.endDate ps
    else sweep cE ps

/-- `calculateTotalExperience` (source lines 1024-1047): sort by start
date ascending, initialise `currentEndDate` to the first start, then run
the sweep over the whole sorted list. -/
def calculateTotalExperience (l : List Period) : Int :=
  match List.insertionSort startLE l with
  | [] => 0
  | p :: ps => sweep p.startDate (p :: ps)

/-- `period.jobTitle && period.company` both truthy (source line 905). -/
def fullInfo (p : Period) : Bool := truthy p.jobTitle && truthy p.company

/-- One step of the phase-1 `Map`: on a fresh key append the entry; on an
existing key replace the stored entry only when the stored one lacks
title or company and the incoming one has both (source lines 898-911). -/
def updateEntry : List ((Int × Int × String) × Period) → Period → List ((Int × Int × String) × Period)
  | [], p => [(p1Key p, p)]
  | (k, q) :: rest, p =>
    if k = p1Key p then
      (if !fullInfo q && fullInfo p then (k, p) :: rest else (k, q) :: rest)
    else (k, q) :: updateEntry rest p

/-- Phase 1 of `deduplicateEmploymentPeriods`: collapse exact duplicates
by `(start, end, title)` key, keeping `Map` insertion order. -/
def dedupPhase1 (l : List Period) : List Period :=
  (l.foldl updateEntry []).map Prod.snd

/-- One step of building `periodsByCompany` (source lines 918-924). -/
def addToGroups : List (String × List Period) → Period → List (String × List Period)
  | [], p => [(companyKey p, [p])]
  | (c, g) :: rest, p =>
    if c = companyKey p then (c, g ++ [p]) :: rest
    else (c, g) :: addToGroups rest p

/-- Group periods by company key, keys in first-appearance order. -/
def groupByCompany (l : List Period) : List (String × List Period) :=
  l.foldl addToGroups []

/-- The containment test of phase 2 (source line 947):
`current.startDate >= other.startDate && current.endDate <= other.endDate`. -/
def containedIn (p q : Period) : Bool :=
  decide (q.startDate ≤ p.startDate) && decide (p.endDate ≤ q.endDate)

/-- Phase-2 elimination (source lines 936-956): keep exactly the entries
not contained in any entry at a different index of the same group. -/
def removeContained (g : List Period) : List Period :=
  (g.enum.filter (fun ip =>
    !(g.enum.any (fun jq => !decide (jq.1 = ip.1) && containedIn ip.2 jq.2)))).map Prod.snd

/-- Per-company processing of phase 2 (source lines 927-959): singleton
groups pass through; larger groups are sorted by duration descending and
purged of contained entries. -/
def processGroup (g : List Period) : List Period :=
  if g.length ≤ 1 then g else removeContained (List.insertionSort durGE g)

/-- `deduplicateEmploymentPeriods` (source lines 892-962). -/
def deduplicateEmploymentPeriods (l : List Period) : List Period :=
  if l.length ≤ 1 then l
  else ((groupByCompany (dedupPhase1 l)).map (fun cg => processGroup cg.2)).flatten

/-- Overlap of two periods: their month spans (half-open on the month
index line, matching the duration measure `end - start`) intersect with
positive length. -/
def overlaps (p q : Period) : Prop :=
  max p.startDate q.startDate < min p.endDate q.endDate

/-- Month index of year `y`, zero-based month `m`. -/
def monthIdx (y m : Int) : Int := y * 12 + m

/-- Scenario period January 2018 - December 2019 at CompanyA. -/
def c1P1 : Period :=
  { startDate := monthIdx 2018 0, endDate := monthIdx 2019 11
    duration := 23, jobTitle := some "Engineer", company := some "CompanyA" }

/-- Scenario period March 2018 - June 2018 at CompanyA. -/
def c1P2 : Period :=
  { startDate := monthIdx 2018 2, endDate := monthIdx 2018 5
    duration := 3, jobTitle := some "Engineer", company := some "CompanyA" }

/-- Sum of the interval durations of a list of periods. -/
def durSum (l : List Period) : Int :=
  (l.map (fun p => calculateDuration p.startDate p.endDate)).sum

theorem overlaps_symm {p q : Period} (h : overlaps p q) : overlaps q p := by
  unfold overlaps at *
  omega

theorem sweep_le_sum (l : List Period) :
    ∀ cE : Int, (∀ p ∈ l, p.startDate ≤ p.endDate) → sweep cE l ≤ durSum l := by
  induction l with
  | nil => intro cE _; simp [sweep, durSum]
  | cons p ps ih =>
    intro cE h
    have hp : p.startDate ≤ p.endDate := h p (List.mem_cons_self _ _)
    have hps : ∀ q ∈ ps, q.startDate ≤ q.endDate := fun q hq => h q (List.mem_cons_of_mem _ hq)
    have hd : durSum (p :: ps) = calculateDuration p.startDate p.endDate + durSum ps := by
      simp [durSum]
    rw [hd]
    unfold sweep
    split
    · have := ih p.endDate hps
      unfold calculateDuration at *
      omega
    · split
      · have := ih p.endDate hps
        unfold calculateDuration at *
        omega
      · have := ih cE hps
        unfold calculateDuration at *
        omega

theorem sweep_eq_sum (l : List Period) :
    ∀ cE : Int, (∀ p ∈ l, p.startDate ≤ p.endDate) →
    l.Pairwise startLE →
    l.Pairwise (fun p q => ¬ overlaps p q) →
    (∀ p ∈ l, cE ≤ p.startDate ∨ p.startDate = p.endDate) →
    sweep cE l = durSum l := by
  induction l with
  | nil => intro cE _ _ _ _; simp [sweep, durSum]
  | cons p ps ih =>
    intro cE h hsorted hov hinv
    have hp : p.startDate ≤ p.endDate := h p (List.mem_cons_self _ _)
    have hps : ∀ q ∈ ps, q.startDate ≤ q.endDate := fun q hq => h q (List.mem_cons_of_mem _ hq)
    obtain ⟨hsort1, hsort2⟩ := List.pairwise_cons.mp hsorted
    obtain ⟨hov1, hov2⟩ := List.pairwise_cons.mp hov
    have hinvp := hinv p (List.mem_cons_self _ _)
    have hinvps : ∀ q ∈ ps, cE ≤ q.startDate ∨ q.startDate = q.endDate :=
      fun q hq => hinv q (List.mem_cons_of_mem _ hq)
    -- After processing `p`, the accumulator `p.endDate` still satisfies the
    -- invariant on the tail: non-overlap with sortedness forces each later
    -- period to start at or after `p.endDate`, or to be degenerate.
    have hnext : ∀ q ∈ ps, p.endDate ≤ q.startDate ∨ q.startDate = q.endDate := by
      intro q hq
      have h1 : p.startDate ≤ q.startDate := hsort1 q hq
      have h2 : ¬ overlaps p q := hov1 q hq
      have h3 : q.startDate ≤ q.endDate := hps q hq
      unfold overlaps at h2
      omega
    have hd : durSum (p :: ps) = calculateDuration p.startDate p.endDate + durSum ps := by
      simp [durSum]
    rw [hd]
    unfold sweep
    split
    · rw [ih p.endDate hps hsort2 hov2 hnext]
    · split
      · have : cE = p.startDate := by omega
        rw [ih p.endDate hps hsort2 hov2 hnext]
        unfold calculateDuration
        omega
      · have : p.startDate = p.endDate := by omega
        rw [ih cE hps hsort2 hov2 hinvps]
        unfold calculateDuration
        omega

theorem sweep_lt_sum (l : List Period) :
    ∀ cE : Int, (∀ p ∈ l, p.startDate ≤ p.endDate) →
    l.Pairwise startLE →
    ((∃ p ∈ l, p.startDate < cE ∧ p.startDate < p.endDate) ∨
      ¬ l.Pairwise (fun p q => ¬ overlaps p q)) →
    sweep cE l < durSum l := by
  induction l with
  | nil =>
    intro cE _ _ hbad
    rcases hbad with ⟨p, hp, _⟩ | hbad
    · exact absurd hp (List.not_mem_nil p)
    · exact absurd List.Pairwise.nil hbad
  | cons p ps ih =>
    intro cE h hsorted hbad
    have hp : p.startDate ≤ p.endDate := h p (List.mem_cons_self _ _)
    have hps : ∀ q ∈ ps, q.startDate ≤ q.endDate := fun q hq => h q (List.mem_cons_of_mem _ hq)
    obtain ⟨hsort1, hsort2⟩ := List.pairwise_cons.mp hsorted
    have hd : durSum (p :: ps) = calculateDuration p.startDate p.endDate + durSum ps := by
      simp [durSum]
    -- Split the badness witness into a form usable for the tail.
    have hsplit : (∃ q ∈ ps, overlaps p q) ∨ ¬ ps.Pairwise (fun a b => ¬ overlaps a b) ∨
        (∃ q ∈ p :: ps, q.startDate < cE ∧ q.startDate < q.endDate) := by
      rcases hbad with hex | hnp
      · exact Or.inr (Or.inr hex)
      · rw [List.pairwise_cons] at hnp
        rcases not_and_or.mp hnp with h1 | h2
        · push_neg at h1
          obtain ⟨q, hq, hq2⟩ := h1
          exact Or.inl ⟨q, hq, hq2⟩
        · exact Or.inr (Or.inl h2)
    rw [hd]
    unfold sweep
    split
    · -- cE < p.startDate : full contribution, pass badness to the tail.
      rename_i h1
      have htail : (∃ q ∈ ps, q.startDate < p.endDate ∧ q.startDate < q.endDate) ∨
          ¬ ps.Pairwise (fun a b => ¬ overlaps a b) := by
        rcases hsplit with ⟨q, hq, hqo⟩ | hnp | ⟨q, hq, hq1, hq2⟩
        · unfold overlaps at hqo
          exact Or.inl ⟨q, hq, by omega, by omega⟩
        · exact Or.inr hnp
        · rcases List.mem_cons.mp hq with rfl | hq'
          · omega
          · have hle : p.startDate ≤ q.startDate := hsort1 q hq'
            omega
      have := ih p.endDate hps hsort2 htail
      omega
    · split
      · rename_i h1 h2
        by_cases h3 : p.startDate < cE
        · -- Partial contribution strictly below the full duration.
          have := sweep_le_sum ps p.endDate hps
          unfold calculateDuration at *
          omega
        · have hce : cE = p.startDate := by omega
          subst hce
          have htail : (∃ q ∈ ps, q.startDate < p.endDate ∧ q.startDate < q.endDate) ∨
              ¬ ps.Pairwise (fun a b => ¬ overlaps a b) := by
            rcases hsplit with ⟨q, hq, hqo⟩ | hnp | ⟨q, hq, hq1, hq2⟩
            · unfold overlaps at hqo
              exact Or.inl ⟨q, hq, by omega, by omega⟩
            · exact Or.inr hnp
            · rcases List.mem_cons.mp hq with rfl | hq'
              · omega
              · have hle : p.startDate ≤ q.startDate := hsort1 q hq'
                omega
          have := ih p.endDate hps hsort2 htail
          unfold calculateDuration at *
          omega
      · rename_i h1 h2
        by_cases h4 : p.startDate < p.endDate
        · -- Fully covered non-degenerate period: its duration is lost.
          have := sweep_le_sum ps cE hps
          unfold calculateDuration at *
          omega
        · have hpe : p.startDate = p.endDate := by omega
          have htail : (∃ q ∈ ps, q.startDate < cE ∧ q.startDate < q.endDate) ∨
              ¬ ps.Pairwise (fun a b => ¬ overlaps a b) := by
            rcases hsplit with ⟨q, hq, hqo⟩ | hnp | ⟨q, hq, hq1, hq2⟩
            · unfold overlaps at hqo
              omega
            · exact Or.inr hnp
            · rcases List.mem_cons.mp hq with rfl | hq'
              · omega
              · exact Or.inl ⟨q, hq', hq1, hq2⟩
          have := ih cE hps hsort2 htail
          unfold calculateDuration at *
          omega

/-- C5: with every period satisfying start ≤ end, the computed total
experience is at most the sum of the individual interval durations, with
equality exactly when no two periods overlap.  Overlap of two
month-granularity periods means positive-length intersection of their
spans (`max start < min end`), the measure notion under which the
duration of a period is `end - start` months; two periods merely sharing
a boundary month index do not overlap. -/
theorem c5_total_le_sum_iff_no_overlap (l : List Period)
    (h : ∀ p ∈ l, p.startDate ≤ p.endDate) :
    calculateTotalExperience l ≤ durSum l ∧
    (calculateTotalExperience l = durSum l ↔
      l.Pairwise (fun p q => ¬ overlaps p q)) := by
  have hperm : (List.insertionSort startLE l).Perm l := List.perm_insertionSort startLE l
  have hsorted : (List.insertionSort startLE l).Pairwise startLE :=
    List.sorted_insertionSort startLE l
  have hmem : ∀ p ∈ List.insertionSort startLE l, p.startDate ≤ p.endDate :=
    fun p hp => h p (hperm.mem_iff.mp hp)
  have hsum : durSum (List.insertionSort startLE l) = durSum l :=
    List.Perm.sum_eq (hperm.map _)
  have hpw : l.Pairwise (fun p q => ¬ overlaps p q) ↔
      (List.insertionSort startLE l).Pairwise (fun p q => ¬ overlaps p q) :=
    (List.Perm.pairwise_iff (fun hx hy => hx (overlaps_symm hy)) hperm).symm
  cases hs : List.insertionSort startLE l with
  | nil =>
    have hnil : l = [] := by
      have hp := hperm
      rw [hs] at hp
      exact hp.symm.eq_nil
    subst hnil
    have hcalc : calculateTotalExperience [] = 0 := by
      unfold calculateTotalExperience
      rw [hs]
    rw [hcalc]
    simp [durSum]
  | cons p ps =>
    rw [hs] at hperm hsorted hmem hsum hpw
    have hcalc : calculateTotalExperience l = sweep p.startDate (p :: ps) := by
      unfold calculateTotalExperience
      rw [hs]
    rw [hcalc]
    constructor
    · calc sweep p.startDate (p :: ps) ≤ durSum (p :: ps) := sweep_le_sum _ _ hmem
        _ = durSum l := hsum
    · constructor
      · intro heq
        by_contra hno
        have hlt : sweep p.startDate (p :: ps) < durSum (p :: ps) :=
          sweep_lt_sum _ _ hmem hsorted (Or.inr (fun hc => hno (hpw.mpr hc)))
        rw [hsum] at hlt
        omega
      · intro hok
        have hinv : ∀ q ∈ p :: ps, p.startDate ≤ q.startDate ∨ q.startDate = q.endDate := by
          intro q hq
          rcases List.mem_cons.mp hq with rfl | hq'
          · exact Or.inl le_rfl
          · exact Or.inl ((List.pairwise_cons.mp hsorted).1 q hq')
        rw [sweep_eq_sum _ _ hmem hsorted (hpw.mp hok) hinv, hsum]

/-- Character-list test that `sub` starts `l` (exact characters, as in JS
`String.prototype.startsWith`). -/
def isPrefOf : List Char → List Char → Bool
  | [], _ => true
  | _ :: _, [] => false
  | a :: as, b :: bs => a == b && isPrefOf as bs

/-- Character-list substring containment, as in JS `String.prototype.includes`
(case-sensitive; the empty string is contained in everything). -/
def hasSub (sub : List Char) : List Char → Bool
  | [] => sub.isEmpty
  | b :: bs => isPrefOf sub (b :: bs) || hasSub sub bs

/-- `s.includes(sub)` on stored labels. -/
def strIncludes (s sub : String) : Bool := hasSub sub.data s.data

theorem hasSub_nil (l : List Char) : hasSub [] l = true := by
  cases l <;> simp [hasSub, isPrefOf]

/-- The tail of the seniority table shared by the source table and the
claim mapping. -/
def restLevels : List (String × Nat) :=
  [("senior", 3), ("lead", 4), ("principal", 5), ("manager", 5),
   ("director", 6), ("vp", 7), ("cto", 8)]

/-- The `titleLevels` table of `analyzeCareerProgression` (source lines
1094-1104), in JS object insertion order; the entry with key `""` encodes
"no modifier implies mid-level" and matches every title. -/
def titleLevels : List (String × Nat) :=
  ("junior", 1) :: ("", 2) :: restLevels

/-- The seniority level the source assigns to a title (source lines
1114-1121): start from 2 and take `Math.max` over every table entry whose
key is a substring of the title. -/
def titleLevelScore (t : String) : Nat :=
  titleLevels.foldl (fun acc e => if strIncludes t e.1 then max acc e.2 else acc) 2

/-- The seniority mapping named by claim C2 (junior=1, senior=3, lead=4,
principal=5, manager=5, director=6, vp=7, cto=8), without the empty-string
entry. -/
def claimTitleLevels : List (String × Nat) :=
  ("junior", 1) :: restLevels

/-- Maximum of a list of naturals. -/
def maxList (l : List Nat) : Nat := l.foldl max 0

/-- The maximum level among the entries of a table whose key is a
substring of the title (0 when none match). -/
def matchMax (t : String) (L : List (String × Nat)) : Nat :=
  maxList ((L.filter (fun e => strIncludes t e.1)).map Prod.snd)

/-- Modelled from the spec words of claim C2: the maximum ordinal over the
matching substrings of the title, with 2 used only when no substring
matches. -/
def specSeniorityLevel (t : String) : Nat :=
  if (claimTitleLevels.filter (fun e => strIncludes t e.1)).isEmpty then 2
  else matchMax t claimTitleLevels

theorem foldl_max_max (l : List Nat) : ∀ a b : Nat, l.foldl max (max a b) = max a (l.foldl max b) := by
  induction l with
  | nil => intro a b; rfl
  | cons c l ih =>
    intro a b
    show l.foldl max (max (max a b) c) = max a (l.foldl max (max b c))
    rw [max_assoc, ih]

theorem maxList_cons (x : Nat) (xs : List Nat) : maxList (x :: xs) = max x (maxList xs) := by
  show xs.foldl max (max 0 x) = max x (xs.foldl max 0)
  rw [max_comm 0 x, foldl_max_max]

theorem matchMax_cons (t : String) (e : String × Nat) (L : List (String × Nat)) :
    matchMax t (e :: L) =
      if strIncludes t e.1 then max e.2 (matchMax t L) else matchMax t L := by
  unfold matchMax
  rw [List.filter_cons]
  by_cases hm : strIncludes t e.1 = true
  · rw [if_pos hm, if_pos hm, List.map_cons, maxList_cons]
  · rw [if_neg hm, if_neg hm]

theorem foldl_step_eq (t : String) (L : List (String × Nat)) :
    ∀ a : Nat, L.foldl (fun acc e => if strIncludes t e.1 then max acc e.2 else acc) a =
      max a (matchMax t L) := by
  induction L with
  | nil => intro a; simp [matchMax, maxList]
  | cons e L ih =>
    intro a
    rw [List.foldl_cons, matchMax_cons]
    by_cases hm : strIncludes t e.1 = true
    · rw [if_pos hm, if_pos hm, ih, max_assoc]
    · rw [if_neg hm, if_neg hm, ih]

/-- C2, counterexample: the source assigns level 2 to the title
"junior developer", whose only matching substring is "junior", while the
claim demands level 1 (the maximum over matching substrings): the code
initialises the level at 2, so a junior match can never lower it. -/
theorem c2_counterexample :
    titleLevelScore "junior developer" = 2 ∧
    specSeniorityLevel "junior developer" = 1 := by
  decide

/-- C2, amended: for every non-empty title the assigned level is the
maximum of 2 and the claim mapping maximum; in particular a title whose
only matching substring is "junior" is assigned level 2, not 1. -/
theorem c2_amended (t : String) (h : t.data ≠ []) :
    titleLevelScore t = max 2 (specSeniorityLevel t) := by
  have he : strIncludes t "" = true := hasSub_nil t.data
  have hcode : titleLevelScore t = max 2 (matchMax t titleLevels) := foldl_step_eq t titleLevels 2
  have hcode2 : matchMax t titleLevels =
      if strIncludes t "junior" then max 1 (max 2 (matchMax t restLevels))
      else max 2 (matchMax t restLevels) := by
    show matchMax t (("junior", 1) :: ("", 2) :: restLevels) = _
    rw [matchMax_cons, matchMax_cons, if_pos he]
  have hclaim : matchMax t claimTitleLevels =
      if strIncludes t "junior" then max 1 (matchMax t restLevels)
      else matchMax t restLevels := by
    show matchMax t (("junior", 1) :: restLevels) = _
    rw [matchMax_cons]
  rw [hcode, hcode2]
  unfold specSeniorityLevel
  by_cases hemp : ((claimTitleLevels.filter (fun e => strIncludes t e.1)).isEmpty : Bool) = true
  · rw [if_pos hemp]
    have hfil : claimTitleLevels.filter (fun e => strIncludes t e.1) = [] :=
      List.isEmpty_iff.mp hemp
    unfold claimTitleLevels at hfil
    rw [List.filter_cons] at hfil
    by_cases hb1 : strIncludes t "junior" = true
    · rw [if_pos hb1] at hfil
      exact absurd hfil (List.cons_ne_nil _ _)
    · rw [if_neg hb1] at hfil
      have hrest : matchMax t restLevels = 0 := by
        unfold matchMax
        rw [hfil]
        rfl
      rw [if_neg hb1, hrest]
      decide
  · rw [if_neg hemp, hclaim]
    by_cases hb1 : strIncludes t "junior" = true
    · rw [if_pos hb1, if_pos hb1]
      omega
    · rw [if_neg hb1, if_neg hb1]
      omega

/-- C2, witness for the amended theorem at the concrete title
"junior developer". -/
theorem c2_witness :
    ("junior developer" : String).data ≠ [] ∧
    titleLevelScore "junior developer" = max 2 (specSeniorityLevel "junior developer") :=
  ⟨by decide, c2_amended "junior developer" (by decide)⟩

/-- The derived career-progression summary (source lines 1163-1167);
`averageJobDuration` is the JS float mean, modelled exactly as a
rational. -/
structure ProgressionResult where
  hasProgression : Bool
  pattern : String
  averageJobDuration : ℚ
deriving DecidableEq

/-- Count of adjacent pairs of a (level, startDate) sequence satisfying a
comparison (the `increases`/`decreases` loops, source lines 1138-1144). -/
def countAdj (f : Nat × Int → Nat × Int → Bool) : List (Nat × Int) → Nat
  | a :: b :: rest => (if f a b then 1 else 0) + countAdj f (b :: rest)
  | _ => 0

/-- Comparator of `titleProgression.sort((a, b) => a.date - b.date)`. -/
def dateLE (a b : Nat × Int) : Prop := a.2 ≤ b.2

instance : DecidableRel dateLE := fun a b => Int.decLe a.2 b.2

/-- The periods with a truthy job title, in list order (source line 1107
and the loop at 1112-1129). -/
def titledOf (l : List Period) : List Period := l.filter (fun p => truthy p.jobTitle)

/-- The (level, startDate) sequence of the titled periods, sorted
chronologically by start date (source lines 1110-1132). -/
def progPairs (l : List Period) : List (Nat × Int) :=
  List.insertionSort dateLE
    ((titledOf l).map (fun p => (titleLevelScore (p.jobTitle.getD ""), p.startDate)))

/-- The title-based part of the progression analysis (source lines
1106-1152): with at least two titled periods, compare the counts of
adjacent level increases and decreases of the chronologically sorted
title levels; returns (hasProgression, base pattern string). -/
def basePattern (l : List Period) : Bool × String :=
  if 2 ≤ (titledOf l).length then
    if countAdj (fun a b => decide (b.1 < a.1)) (progPairs l) <
        countAdj (fun a b => decide (a.1 < b.1)) (progPairs l) then (true, "Upward")
    else if countAdj (fun a b => decide (a.1 < b.1)) (progPairs l) <
        countAdj (fun a b => decide (b.1 < a.1)) (progPairs l) then (false, "Varied")
    else (false, "Stable")
  else (false, "Stable")

/-- The job-hopping test (source lines 1154-1157): at least three stints
under 12 months, or at least three periods of which at least half are
under 12 months (the float test `short / total >= 0.5` is exact for these
small integer counts and equals `2 * short >= total`). -/
def jobHopping (l : List Period) : Bool :=
  decide (3 ≤ (l.filter (fun p => decide (p.duration < 12))).length) ||
  (decide (3 ≤ l.length) &&
    decide (l.length ≤ 2 * (l.filter (fun p => decide (p.duration < 12))).length))

/-- `analyzeCareerProgression` (source lines 1076-1168). -/
def analyzeCareerProgression (l : List Period) : ProgressionResult :=
  if l.length ≤ 1 then
    { hasProgression := false
      pattern := "Insufficient data"
      averageJobDuration := match l with | [p] => (p.duration : ℚ) | _ => 0 }
  else
    { hasProgression := (basePattern l).1
      pattern := if jobHopping l then (basePattern l).2 ++ ", Frequent changes" else (basePattern l).2
      averageJobDuration := ((l.map Period.duration).sum : ℚ) / (l.length : ℚ) }

/-- C3, counterexample: on an empty period list the pattern is the string
"Insufficient data", which is none of the claimed forms. -/
theorem c3_counterexample :
    (analyzeCareerProgression []).pattern ∉
      (["Stable", "Upward", "Varied", "Stable, Frequent changes",
        "Upward, Frequent changes", "Varied, Frequent changes"] : List String) := by
  decide

/-- C3, amended: for every list of at least two periods the pattern is
"Stable", "Upward" or "Varied", optionally suffixed with
", Frequent changes"; lists with zero or one period instead get the
pattern "Insufficient data". -/
theorem c3_amended (l : List Period) (h : 2 ≤ l.length) :
    (analyzeCareerProgression l).pattern ∈
      (["Stable", "Upward", "Varied", "Stable, Frequent changes",
        "Upward, Frequent changes", "Varied, Frequent changes"] : List String) := by
  have h1 : ¬ l.length ≤ 1 := by omega
  have hb : (basePattern l).2 = "Upward" ∨ (basePattern l).2 = "Varied" ∨
      (basePattern l).2 = "Stable" := by
    unfold basePattern
    split
    · split
      · simp
      · split
        · simp
        · simp
    · simp
  by_cases hj : jobHopping l = true <;>
    rcases hb with hb | hb | hb <;>
    simp [analyzeCareerProgression, h1, hj, hb]

/-- C3, witness for the amended theorem at a concrete two-period list. -/
theorem c3_witness :
    2 ≤ ([{ startDate := 0, endDate := 24, duration := 24, jobTitle := some "junior developer",
            company := some "A" },
          { startDate := 30, endDate := 60, duration := 30, jobTitle := some "senior developer",
            company := some "B" }] : List Period).length ∧
    (analyzeCareerProgression
        [{ startDate := 0, endDate := 24, duration := 24, jobTitle := some "junior developer",
           company := some "A" },
         { startDate := 30, endDate := 60, duration := 30, jobTitle := some "senior developer",
           company := some "B" }]).pattern ∈
      (["Stable", "Upward", "Varied", "Stable, Frequent changes",
        "Upward, Frequent changes", "Varied, Frequent changes"] : List String) :=
  ⟨by decide, c3_amended _ (by decide)⟩

/-- C5, witness: the main theorem applied to a concrete one-period list. -/
theorem c5_witness :
    (∀ p ∈ ([{ startDate := 0, endDate := 5, duration := 5, jobTitle := none,
               company := none }] : List Period), p.startDate ≤ p.endDate) ∧
    (calculateTotalExperience
        [{ startDate := 0, endDate := 5, duration := 5, jobTitle := none, company := none }] ≤
      durSum [{ startDate := 0, endDate := 5, duration := 5, jobTitle := none, company := none }] ∧
    (calculateTotalExperience
        [{ startDate := 0, endDate := 5, duration := 5, jobTitle := none, company := none }] =
      durSum [{ startDate := 0, endDate := 5, duration := 5, jobTitle := none, company := none }] ↔
      ([{ startDate := 0, endDate := 5, duration := 5, jobTitle := none,
          company := none }] : List Period).Pairwise (fun p q => ¬ overlaps p q))) :=
  ⟨by decide, c5_total_le_sum_iff_no_overlap _ (by decide)⟩

/-- Every entry of the map after an update is an old entry or the fresh
entry for the incoming period. -/
theorem updateEntry_mem : ∀ (acc : List ((Int × Int × String) × Period)) (p : Period)
    (x : (Int × Int × String) × Period), x ∈ updateEntry acc p →
    x ∈ acc ∨ x = (p1Key p, p) := by
  intro acc p
  induction acc with
  | nil =>
    intro x hx
    simp only [updateEntry, List.mem_singleton] at hx
    exact Or.inr hx
  | cons e rest ih =>
    intro x hx
    unfold updateEntry at hx
    by_cases hk : e.1 = p1Key p
    · rw [if_pos hk] at hx
      by_cases hr : (!fullInfo e.2 && fullInfo p) = true
      · rw [if_pos hr] at hx
        rcases List.mem_cons.mp hx with rfl | hx'
        · exact Or.inr (by rw [hk])
        · exact Or.inl (List.mem_cons_of_mem _ hx')
      · rw [if_neg hr] at hx
        rcases List.mem_cons.mp hx with rfl | hx'
        · exact Or.inl (List.mem_cons_self _ _)
        · exact Or.inl (List.mem_cons_of_mem _ hx')
    · rw [if_neg hk] at hx
      rcases List.mem_cons.mp hx with rfl | hx'
      · exact Or.inl (List.mem_cons_self _ _)
      · rcases ih x hx' with h | h
        · exact Or.inl (List.mem_cons_of_mem _ h)
        · exact Or.inr h

/-- The phase-1 fold only stores keys computed from their own values, and
keeps keys pairwise distinct. -/
theorem foldl_updateEntry_inv (l : List Period) :
    ∀ (acc : List ((Int × Int × String) × Period)),
    (∀ e ∈ acc, e.1 = p1Key e.2) →
    acc.Pairwise (fun a b => a.1 ≠ b.1) →
    (∀ e ∈ l.foldl updateEntry acc, e.1 = p1Key e.2) ∧
    (l.foldl updateEntry acc).Pairwise (fun a b => a.1 ≠ b.1) := by
  induction l with
  | nil => intro acc h1 h2; exact ⟨h1, h2⟩
  | cons p rest ih =>
    intro acc h1 h2
    rw [List.foldl_cons]
    refine ih (updateEntry acc p) ?_ ?_
    · -- key correctness is preserved by one update
      clear ih
      induction acc with
      | nil =>
        intro e he
        simp only [updateEntry, List.mem_singleton] at he
        rw [he]
      | cons a acc' ih' =>
        intro e he
        unfold updateEntry at he
        by_cases hk : a.1 = p1Key p
        · rw [if_pos hk] at he
          by_cases hr : (!fullInfo a.2 && fullInfo p) = true
          · rw [if_pos hr] at he
            rcases List.mem_cons.mp he with rfl | he'
            · exact hk
            · exact h1 e (List.mem_cons_of_mem _ he')
          · rw [if_neg hr] at he
            rcases List.mem_cons.mp he with rfl | he'
            · exact h1 a (List.mem_cons_self _ _)
            · exact h1 e (List.mem_cons_of_mem _ he')
        · rw [if_neg hk] at he
          rcases List.mem_cons.mp he with rfl | he'
          · exact h1 a (List.mem_cons_self _ _)
          · exact ih' (fun x hx => h1 x (List.mem_cons_of_mem _ hx))
              ((List.pairwise_cons.mp h2).2) e he'
    · -- key distinctness is preserved by one update
      clear ih
      induction acc with
      | nil =>
        simp [updateEntry]
      | cons a acc' ih' =>
        obtain ⟨hh, ht⟩ := List.pairwise_cons.mp h2
        unfold updateEntry
        by_cases hk : a.1 = p1Key p
        · rw [if_pos hk]
          by_cases hr : (!fullInfo a.2 && fullInfo p) = true
          · rw [if_pos hr]
            exact List.pairwise_cons.mpr ⟨fun y hy => hk ▸ hh y hy, ht⟩
          · rw [if_neg hr]
            exact h2
        · rw [if_neg hk]
          refine List.pairwise_cons.mpr ⟨?_, ?_⟩
          · intro y hy
            rcases updateEntry_mem acc' p y hy with h | h
            · exact hh y h
            · rw [h]
              exact hk
          · exact ih' (fun x hx => h1 x (List.mem_cons_of_mem _ hx)) ht

/-- Every value stored by the phase-1 fold comes from the input list (or
the initial accumulator). -/
theorem foldl_updateEntry_values (l : List Period) :
    ∀ (acc : List ((Int × Int × String) × Period)) (x : (Int × Int × String) × Period),
    x ∈ l.foldl updateEntry acc → x ∈ acc ∨ x.2 ∈ l := by
  induction l with
  | nil => intro acc x hx; exact Or.inl hx
  | cons p rest ih =>
    intro acc x hx
    rw [List.foldl_cons] at hx
    rcases ih (updateEntry acc p) x hx with h | h
    · rcases updateEntry_mem acc p x h with h' | h'
      · exact Or.inl h'
      · exact Or.inr (by rw [h']; exact List.mem_cons_self _ _)
    · exact Or.inr (List.mem_cons_of_mem _ h)

/-- Every processed period leaves an entry under its key in the map. -/
theorem foldl_updateEntry_keys (l : List Period) :
    ∀ (acc : List ((Int × Int × String) × Period)) (p : Period),
    (p ∈ l ∨ ∃ e ∈ acc, e.1 = p1Key p) →
    ∃ e ∈ l.foldl updateEntry acc, e.1 = p1Key p := by
  induction l with
  | nil =>
    intro acc p h
    rcases h with h | h
    · exact absurd h (List.not_mem_nil p)
    · exact h
  | cons q rest ih =>
    intro acc p h
    rw [List.foldl_cons]
    -- one update preserves existing keys and installs the key of `q`
    have hpres : ∀ (k : Int × Int × String), (∃ e ∈ acc, e.1 = k) →
        ∃ e ∈ updateEntry acc q, e.1 = k := by
      clear ih h
      induction acc with
      | nil =>
        intro k hk
        obtain ⟨e, he, _⟩ := hk
        exact absurd he (List.not_mem_nil e)
      | cons a acc' ih' =>
        intro k hk
        obtain ⟨e, he, hek⟩ := hk
        unfold updateEntry
        by_cases hq : a.1 = p1Key q
        · rw [if_pos hq]
          by_cases hr : (!fullInfo a.2 && fullInfo q) = true
          · rw [if_pos hr]
            rcases List.mem_cons.mp he with rfl | he'
            · exact ⟨(e.1, q), List.mem_cons_self _ _, hek⟩
            · exact ⟨e, List.mem_cons_of_mem _ he', hek⟩
          · rw [if_neg hr]
            exact ⟨e, he, hek⟩
        · rw [if_neg hq]
          rcases List.mem_cons.mp he with rfl | he'
          · exact ⟨e, List.mem_cons_self _ _, hek⟩
          · obtain ⟨e', he2, hek'⟩ := ih' k ⟨e, he', hek⟩
            exact ⟨e', List.mem_cons_of_mem _ he2, hek'⟩
    have hself : ∃ e ∈ updateEntry acc q, e.1 = p1Key q := by
      clear ih h hpres
      induction acc with
      | nil => exact ⟨(p1Key q, q), by simp [updateEntry]⟩
      | cons a acc' ih' =>
        unfold updateEntry
        by_cases hq : a.1 = p1Key q
        · rw [if_pos hq]
          by_cases hr : (!fullInfo a.2 && fullInfo q) = true
          · rw [if_pos hr]
            exact ⟨(a.1, q), List.mem_cons_self _ _, hq⟩
          · rw [if_neg hr]
            exact ⟨a, List.mem_cons_self _ _, hq⟩
        · rw [if_neg hq]
          obtain ⟨e, he, hek⟩ := ih'
          exact ⟨e, List.mem_cons_of_mem _ he, hek⟩
    rcases h with h | h
    · rcases List.mem_cons.mp h with rfl | h'
      · exact ih _ p (Or.inr hself)
      · exact ih _ p (Or.inl h')
    · exact ih _ p (Or.inr (hpres _ h))

/-- Elements of `dedupPhase1 l` are elements of `l`. -/
theorem mem_dedupPhase1 (l : List Period) (p : Period) (h : p ∈ dedupPhase1 l) : p ∈ l := by
  unfold dedupPhase1 at h
  obtain ⟨e, he, rfl⟩ := List.mem_map.mp h
  rcases foldl_updateEntry_values l [] e he with h' | h'
  · exact absurd h' (List.not_mem_nil e)
  · exact h'

/-- The keys of `dedupPhase1 l` are pairwise distinct at value level. -/
theorem dedupPhase1_pairwise_keys (l : List Period) :
    (dedupPhase1 l).Pairwise (fun p q => p1Key p ≠ p1Key q) := by
  obtain ⟨h1, h2⟩ := foldl_updateEntry_inv l [] (by simp) List.Pairwise.nil
  unfold dedupPhase1
  rw [List.pairwise_map]
  exact h2.imp_of_mem (fun ha hb hab => by
    rw [← h1 _ ha, ← h1 _ hb]
    exact hab)

/-- Adding a period with a fresh company key appends a new singleton
group. -/
theorem addToGroups_fresh : ∀ (acc : List (String × List Period)) (p : Period),
    companyKey p ∉ acc.map Prod.fst →
    addToGroups acc p = acc ++ [(companyKey p, [p])] := by
  intro acc p
  induction acc with
  | nil => intro _; rfl
  | cons a rest ih =>
    intro h
    obtain ⟨c, g⟩ := a
    have hc : c ≠ companyKey p := by
      intro hc
      exact h (by simp [hc])
    unfold addToGroups
    rw [if_neg hc]
    rw [ih (fun hm => h (by simp [List.mem_map] at hm ⊢; exact Or.inr hm))]
    rfl

/-- Adding a period whose company key is already present (keys pairwise
distinct) appends it to exactly its group. -/
theorem addToGroups_update : ∀ (acc : List (String × List Period)) (p : Period),
    companyKey p ∈ acc.map Prod.fst →
    acc.Pairwise (fun a b => a.1 ≠ b.1) →
    addToGroups acc p =
      acc.map (fun cg => if cg.1 = companyKey p then (cg.1, cg.2 ++ [p]) else cg) := by
  intro acc p
  induction acc with
  | nil => intro h _; simp at h
  | cons a rest ih =>
    intro hmem hpw
    obtain ⟨c, g⟩ := a
    obtain ⟨hh, ht⟩ := List.pairwise_cons.mp hpw
    by_cases hc : c = companyKey p
    · unfold addToGroups
      rw [if_pos hc]
      rw [List.map_cons, if_pos hc]
      have hrest : rest.map (fun cg => if cg.1 = companyKey p then (cg.1, cg.2 ++ [p]) else cg)
          = rest := by
        have : ∀ cg ∈ rest,
            (if cg.1 = companyKey p then (cg.1, cg.2 ++ [p]) else cg) = id cg := by
          intro cg hcg
          have : cg.1 ≠ companyKey p := by
            intro he
            exact (hh cg hcg) (hc.trans he.symm)
          simp [this]
        rw [List.map_congr_left this, List.map_id]
      rw [hrest]
    · unfold addToGroups
      rw [if_neg hc]
      have hmem' : companyKey p ∈ rest.map Prod.fst := by
        rcases List.mem_map.mp hmem with ⟨d, hd, hdk⟩
        rcases List.mem_cons.mp hd with rfl | hd'
        · exact absurd hdk hc
        · exact List.mem_map.mpr ⟨d, hd', hdk⟩
      rw [ih hmem' ht, List.map_cons, if_neg hc]

/-- First components are unchanged by the group-update map. -/
theorem fst_groupUpdate (p : Period) (cg : String × List Period) :
    ((if cg.1 = companyKey p then (cg.1, cg.2 ++ [p]) else cg) : String × List Period).1 = cg.1 := by
  split <;> rfl

/-- One `addToGroups` step preserves the grouping invariants: every group
is the filter of the processed prefix by its key, keys are pairwise
distinct, and every processed period has its key among the groups. -/
theorem addToGroups_step (acc : List (String × List Period)) (pre : List Period) (p : Period)
    (h1 : ∀ cg ∈ acc, cg.2 = pre.filter (fun q => decide (companyKey q = cg.1)))
    (h2 : acc.Pairwise (fun a b => a.1 ≠ b.1))
    (h3 : ∀ q ∈ pre, companyKey q ∈ acc.map Prod.fst) :
    (∀ cg ∈ addToGroups acc p,
        cg.2 = (pre ++ [p]).filter (fun q => decide (companyKey q = cg.1))) ∧
    (addToGroups acc p).Pairwise (fun a b => a.1 ≠ b.1) ∧
    (∀ q ∈ pre ++ [p], companyKey q ∈ (addToGroups acc p).map Prod.fst) := by
  by_cases hmem : companyKey p ∈ acc.map Prod.fst
  · rw [addToGroups_update acc p hmem h2]
    have hkeys : (acc.map (fun cg =>
        if cg.1 = companyKey p then (cg.1, cg.2 ++ [p]) else cg)).map Prod.fst
        = acc.map Prod.fst := by
      rw [List.map_map]
      exact List.map_congr_left (fun cg _ => fst_groupUpdate p cg)
    refine ⟨?_, ?_, ?_⟩
    · intro cg hcg
      obtain ⟨d, hd, rfl⟩ := List.mem_map.mp hcg
      by_cases hdk : d.1 = companyKey p
      · rw [if_pos hdk]
        rw [List.filter_append, h1 d hd]
        simp [hdk]
      · rw [if_neg hdk]
        rw [List.filter_append, h1 d hd]
        have hne' : ¬ companyKey p = d.1 := fun he => hdk he.symm
        have : (List.filter (fun q => decide (companyKey q = d.1)) [p]) = [] := by
          simp [hne']
        rw [this, List.append_nil]
    · rw [List.pairwise_map]
      exact h2.imp_of_mem (fun ha hb hab => by
        rw [fst_groupUpdate, fst_groupUpdate]
        exact hab)
    · intro q hq
      rw [hkeys]
      rcases List.mem_append.mp hq with hq' | hq'
      · exact h3 q hq'
      · rw [List.mem_singleton.mp hq']
        exact hmem
  · rw [addToGroups_fresh acc p hmem]
    refine ⟨?_, ?_, ?_⟩
    · intro cg hcg
      rcases List.mem_append.mp hcg with hcg' | hcg'
      · have hne : cg.1 ≠ companyKey p := by
          intro he
          exact hmem (he ▸ List.mem_map.mpr ⟨cg, hcg', rfl⟩)
        rw [List.filter_append, h1 cg hcg']
        have hne' : ¬ companyKey p = cg.1 := fun he => hne he.symm
        have : (List.filter (fun q => decide (companyKey q = cg.1)) [p]) = [] := by
          simp [hne']
        rw [this, List.append_nil]
      · rw [List.mem_singleton.mp hcg']
        have hpre : pre.filter (fun q => decide (companyKey q = companyKey p)) = [] := by
          rw [List.filter_eq_nil]
          intro q hq hdec
          exact hmem ((of_decide_eq_true hdec) ▸ h3 q hq)
        rw [List.filter_append, hpre]
        simp
    · rw [List.pairwise_append]
      refine ⟨h2, List.pairwise_singleton _ _, ?_⟩
      intro a ha b hb
      rw [List.mem_singleton.mp hb]
      intro he
      have he' : a.1 = companyKey p := he
      exact hmem (he' ▸ List.mem_map.mpr ⟨a, ha, rfl⟩)
    · intro q hq
      rcases List.mem_append.mp hq with hq' | hq'
      · rw [List.map_append]
        exact List.mem_append_left _ (h3 q hq')
      · rw [List.mem_singleton.mp hq', List.map_append]
        exact List.mem_append_right _ (by simp)

/-- The grouping invariants hold for the whole fold. -/
theorem gbc_aux (P : List Period) :
    ∀ (acc : List (String × List Period)) (pre : List Period),
    (∀ cg ∈ acc, cg.2 = pre.filter (fun q => decide (companyKey q = cg.1))) →
    acc.Pairwise (fun a b => a.1 ≠ b.1) →
    (∀ q ∈ pre, companyKey q ∈ acc.map Prod.fst) →
    (∀ cg ∈ P.foldl addToGroups acc,
        cg.2 = (pre ++ P).filter (fun q => decide (companyKey q = cg.1))) ∧
    (P.foldl addToGroups acc).Pairwise (fun a b => a.1 ≠ b.1) ∧
    (∀ q ∈ pre ++ P, companyKey q ∈ (P.foldl addToGroups acc).map Prod.fst) := by
  induction P with
  | nil =>
    intro acc pre h1 h2 h3
    simp only [List.foldl_nil, List.append_nil]
    exact ⟨h1, h2, h3⟩
  | cons p P' ih =>
    intro acc pre h1 h2 h3
    rw [List.foldl_cons]
    obtain ⟨s1, s2, s3⟩ := addToGroups_step acc pre p h1 h2 h3
    obtain ⟨r1, r2, r3⟩ := ih (addToGroups acc p) (pre ++ [p]) s1 s2 s3
    have hre : pre ++ [p] ++ P' = pre ++ p :: P' := by
      rw [List.append_assoc]
      rfl
    rw [hre] at r1 r3
    exact ⟨r1, r2, r3⟩

/-- Each group of `groupByCompany P` is exactly the filter of `P` by its
key. -/
theorem groupByCompany_filter (P : List Period) :
    ∀ cg ∈ groupByCompany P, cg.2 = P.filter (fun q => decide (companyKey q = cg.1)) := by
  have := (gbc_aux P [] [] (by simp) List.Pairwise.nil (by simp)).1
  simpa using this

/-- The group keys of `groupByCompany P` are pairwise distinct. -/
theorem groupByCompany_keys (P : List Period) :
    (groupByCompany P).Pairwise (fun a b => a.1 ≠ b.1) := by
  exact (gbc_aux P [] [] (by simp) List.Pairwise.nil (by simp)).2.1

/-- The phase-2 purge returns a sublist of its group. -/
theorem removeContained_sublist (g : List Period) : (removeContained g).Sublist g := by
  unfold removeContained
  have h := (List.filter_sublist (l := g.enum)
    (p := fun ip => !(g.enum.any (fun jq => !decide (jq.1 = ip.1) && containedIn ip.2 jq.2)))).map
    Prod.snd
  rwa [List.enum_map_snd] at h

/-- Positions in an enumerated list are pairwise distinct. -/
theorem enum_pairwise_ne (g : List Period) : g.enum.Pairwise (fun a b => a.1 ≠ b.1) := by
  rw [List.pairwise_iff_getElem]
  intro i j hi hj hij
  rw [List.getElem_enum, List.getElem_enum]
  simpa using Nat.ne_of_lt hij

/-- No two entries kept by the phase-2 purge contain one another. -/
theorem removeContained_pairwise (g : List Period) :
    (removeContained g).Pairwise
      (fun p q => containedIn p q = false ∧ containedIn q p = false) := by
  unfold removeContained
  rw [List.pairwise_map]
  have h0 : (g.enum.filter (fun ip =>
      !(g.enum.any (fun jq => !decide (jq.1 = ip.1) && containedIn ip.2 jq.2)))).Pairwise
      (fun a b => a.1 ≠ b.1) :=
    List.Pairwise.sublist (List.filter_sublist _) (enum_pairwise_ne g)
  refine h0.imp_of_mem (fun {a b} ha hb hab => ?_)
  obtain ⟨hae, hap⟩ := List.mem_filter.mp ha
  obtain ⟨hbe, hbp⟩ := List.mem_filter.mp hb
  rw [Bool.not_eq_true'] at hap hbp
  have ha2 := List.any_eq_false.mp hap b hbe
  have hb2 := List.any_eq_false.mp hbp a hae
  constructor
  · by_contra hc
    apply ha2
    rw [Bool.and_eq_true, Bool.not_eq_true', decide_eq_false_iff_not]
    exact ⟨fun he => hab he.symm, by revert hc; cases containedIn a.2 b.2 <;> simp⟩
  · by_contra hc
    apply hb2
    rw [Bool.and_eq_true, Bool.not_eq_true', decide_eq_false_iff_not]
    exact ⟨hab, by revert hc; cases containedIn b.2 a.2 <;> simp⟩

/-- A group with no mutual containment passes through the purge
unchanged. -/
theorem removeContained_of_pairwise {g : List Period}
    (h : g.Pairwise (fun p q => containedIn p q = false ∧ containedIn q p = false)) :
    removeContained g = g := by
  unfold removeContained
  have hall : ∀ ip ∈ g.enum, (!(g.enum.any
      (fun jq => !decide (jq.1 = ip.1) && containedIn ip.2 jq.2))) = true := by
    intro ip hip
    rw [Bool.not_eq_true', List.any_eq_false]
    intro jq hjq
    obtain ⟨i, x⟩ := ip
    obtain ⟨j, y⟩ := jq
    obtain ⟨hi, hx⟩ := List.mem_enum hip
    obtain ⟨hj, hy⟩ := List.mem_enum hjq
    rw [Bool.and_eq_true, Bool.not_eq_true', decide_eq_false_iff_not]
    rintro ⟨hne, hcont⟩
    have hrel := List.pairwise_iff_getElem.mp h
    rcases Nat.lt_or_ge i j with hij | hij
    · have hfa := (hrel i j hi hj hij).1
      rw [← hx, ← hy] at hfa
      rw [hfa] at hcont
      exact Bool.false_ne_true hcont
    · have hji : j < i := Nat.lt_of_le_of_ne hij (fun he => hne he)
      have hfa := (hrel j i hj hi hji).2
      rw [← hx, ← hy] at hfa
      rw [hfa] at hcont
      exact Bool.false_ne_true hcont
  rw [List.filter_eq_self.mpr hall, List.enum_map_snd]

/-- Members of a processed group are members of the group. -/
theorem mem_processGroup {g : List Period} {p : Period} (h : p ∈ processGroup g) : p ∈ g := by
  unfold processGroup at h
  split at h
  · exact h
  · exact (List.perm_insertionSort durGE g).mem_iff.mp
      (List.Sublist.mem h (removeContained_sublist _))

/-- No two periods of a processed group contain one another. -/
theorem processGroup_pairwise (g : List Period) :
    (processGroup g).Pairwise
      (fun p q => containedIn p q = false ∧ containedIn q p = false) := by
  unfold processGroup
  split
  · rename_i hlen
    match g, hlen with
    | [], _ => exact List.Pairwise.nil
    | [x], _ => exact List.pairwise_singleton _ _
  · exact removeContained_pairwise _

/-- Members of the deduplicated list are members of the input. -/
theorem mem_dedup {l : List Period} {p : Period}
    (h : p ∈ deduplicateEmploymentPeriods l) : p ∈ l := by
  unfold deduplicateEmploymentPeriods at h
  split at h
  · exact h
  · obtain ⟨blk, hblk, hpblk⟩ := List.mem_flatten.mp h
    obtain ⟨cg, hcg, rfl⟩ := List.mem_map.mp hblk
    have h1 : p ∈ cg.2 := mem_processGroup hpblk
    rw [groupByCompany_filter _ cg hcg] at h1
    exact mem_dedupPhase1 _ _ (List.mem_filter.mp h1).1

/-- Strict interval containment of `p` inside `q`: the containment test
holds and the intervals are not identical. -/
def strictlyInside (p q : Period) : Prop :=
  q.startDate ≤ p.startDate ∧ p.endDate ≤ q.endDate ∧
    ¬(p.startDate = q.startDate ∧ p.endDate = q.endDate)

/-- C7: if every input period satisfies start ≤ end (as the entry parser
guarantees, source lines 1209-1211), then every period of the
deduplicated list satisfies start ≤ end, and no two periods of the
deduplicated list that share a company key are in strict containment
(the purge removes even non-strict containment, source lines 938-956). -/
theorem c7_dedup_invariant (l : List Period)
    (h : ∀ p ∈ l, p.startDate ≤ p.endDate) :
    (∀ p ∈ deduplicateEmploymentPeriods l, p.startDate ≤ p.endDate) ∧
    (deduplicateEmploymentPeriods l).Pairwise (fun p q =>
      companyKey p = companyKey q → ¬ strictlyInside p q ∧ ¬ strictlyInside q p) := by
  constructor
  · intro p hp
    exact h p (mem_dedup hp)
  · unfold deduplicateEmploymentPeriods
    split
    · rename_i hlen
      match l, hlen with
      | [], _ => exact List.Pairwise.nil
      | [x], _ => exact List.pairwise_singleton _ _
    · rw [List.pairwise_flatten]
      constructor
      · intro blk hblk
        obtain ⟨cg, _, rfl⟩ := List.mem_map.mp hblk
        refine (processGroup_pairwise cg.2).imp ?_
        intro a b hR
        obtain ⟨hc1, hc2⟩ := hR
        intro _
        constructor
        · rintro ⟨hs, he, _⟩
          have hct : containedIn a b = true := by
            unfold containedIn
            rw [Bool.and_eq_true, decide_eq_true_eq, decide_eq_true_eq]
            exact ⟨hs, he⟩
          rw [hc1] at hct
          exact Bool.false_ne_true hct
        · rintro ⟨hs, he, _⟩
          have hct : containedIn b a = true := by
            unfold containedIn
            rw [Bool.and_eq_true, decide_eq_true_eq, decide_eq_true_eq]
            exact ⟨hs, he⟩
          rw [hc2] at hct
          exact Bool.false_ne_true hct
      · rw [List.pairwise_map]
        refine (groupByCompany_keys (dedupPhase1 l)).imp_of_mem
          (fun {a b} ha hb hab => ?_)
        intro x hx y hy hcxy
        have hxa : companyKey x = a.1 := by
          have := mem_processGroup hx
          rw [groupByCompany_filter _ a ha] at this
          exact of_decide_eq_true (List.mem_filter.mp this).2
        have hyb : companyKey y = b.1 := by
          have := mem_processGroup hy
          rw [groupByCompany_filter _ b hb] at this
          exact of_decide_eq_true (List.mem_filter.mp this).2
        exact absurd (hxa.symm.trans (hcxy.trans hyb)) hab

/-- C7, witness: the invariant theorem applied to a concrete input with a
contained duplicate. -/
theorem c7_witness :
    (∀ p ∈ ([{ startDate := 0, endDate := 20, duration := 20, jobTitle := some "dev",
               company := some "Acme" },
             { startDate := 5, endDate := 10, duration := 5, jobTitle := some "dev",
               company := some "Acme" }] : List Period), p.startDate ≤ p.endDate) ∧
    ((∀ p ∈ deduplicateEmploymentPeriods
        [{ startDate := 0, endDate := 20, duration := 20, jobTitle := some "dev",
           company := some "Acme" },
         { startDate := 5, endDate := 10, duration := 5, jobTitle := some "dev",
           company := some "Acme" }], p.startDate ≤ p.endDate) ∧
      (deduplicateEmploymentPeriods
        [{ startDate := 0, endDate := 20, duration := 20, jobTitle := some "dev",
           company := some "Acme" },
         { startDate := 5, endDate := 10, duration := 5, jobTitle := some "dev",
           company := some "Acme" }]).Pairwise (fun p q =>
        companyKey p = companyKey q → ¬ strictlyInside p q ∧ ¬ strictlyInside q p)) :=
  ⟨by decide, c7_dedup_invariant _ (by decide)⟩

/-- Updating the map with a fresh key appends the entry. -/
theorem updateEntry_fresh (acc : List ((Int × Int × String) × Period)) (p : Period)
    (h : ∀ e ∈ acc, e.1 ≠ p1Key p) :
    updateEntry acc p = acc ++ [(p1Key p, p)] := by
  induction acc with
  | nil => rfl
  | cons a rest ih =>
    unfold updateEntry
    rw [if_neg (h a (List.mem_cons_self _ _))]
    rw [ih (fun e he => h e (List.mem_cons_of_mem _ he))]
    rfl

/-- Folding a key-distinct list into a key-disjoint map appends all
entries in order. -/
theorem foldl_updateEntry_fresh (l : List Period) :
    ∀ (acc : List ((Int × Int × String) × Period)),
    (∀ e ∈ acc, ∀ p ∈ l, e.1 ≠ p1Key p) →
    l.Pairwise (fun p q => p1Key p ≠ p1Key q) →
    l.foldl updateEntry acc = acc ++ l.map (fun p => (p1Key p, p)) := by
  induction l with
  | nil => intro acc _ _; simp
  | cons p rest ih =>
    intro acc hfresh hpw
    obtain ⟨hh, ht⟩ := List.pairwise_cons.mp hpw
    rw [List.foldl_cons,
      updateEntry_fresh acc p (fun e he => hfresh e he p (List.mem_cons_self _ _))]
    rw [ih (acc ++ [(p1Key p, p)]) ?_ ht]
    · rw [List.append_assoc]
      rfl
    · intro e he q hq
      rcases List.mem_append.mp he with he' | he'
      · exact hfresh e he' q (List.mem_cons_of_mem _ hq)
      · rw [List.mem_singleton.mp he']
        exact hh q hq

/-- Phase 1 is the identity on key-distinct lists. -/
theorem dedupPhase1_id (l : List Period)
    (h : l.Pairwise (fun p q => p1Key p ≠ p1Key q)) : dedupPhase1 l = l := by
  unfold dedupPhase1
  rw [foldl_updateEntry_fresh l [] (by simp) h]
  simp only [List.nil_append, List.map_map]
  exact (List.map_congr_left (fun a _ => rfl)).trans (List.map_id l)

/-- `processGroup` preserves any symmetric pairwise relation. -/
theorem processGroup_pairwise_of {R : Period → Period → Prop}
    (hsym : ∀ {x y}, R x y → R y x) {g : List Period}
    (h : g.Pairwise R) : (processGroup g).Pairwise R := by
  unfold processGroup
  split
  · exact h
  · exact List.Pairwise.sublist (removeContained_sublist _)
      (((List.perm_insertionSort durGE g).pairwise_iff hsym).mpr h)

/-- The deduplicated list has pairwise-distinct phase-1 keys. -/
theorem dedup_pairwise_keys (l : List Period) :
    (deduplicateEmploymentPeriods l).Pairwise (fun p q => p1Key p ≠ p1Key q) := by
  unfold deduplicateEmploymentPeriods
  split
  · rename_i hlen
    match l, hlen with
    | [], _ => exact List.Pairwise.nil
    | [x], _ => exact List.pairwise_singleton _ _
  · have hP : (dedupPhase1 l).Pairwise (fun p q => p1Key p ≠ p1Key q) :=
      dedupPhase1_pairwise_keys l
    rw [List.pairwise_flatten]
    constructor
    · intro blk hblk
      obtain ⟨cg, hcg, rfl⟩ := List.mem_map.mp hblk
      refine processGroup_pairwise_of (fun hxy => hxy ∘ Eq.symm) ?_
      rw [groupByCompany_filter _ cg hcg]
      exact List.Pairwise.sublist (List.filter_sublist _) hP
    · rw [List.pairwise_map]
      refine (groupByCompany_keys (dedupPhase1 l)).imp_of_mem (fun {a b} ha hb hab => ?_)
      intro x hx y hy
      have hxa : companyKey x = a.1 := by
        have hm := mem_processGroup hx
        rw [groupByCompany_filter _ a ha] at hm
        exact of_decide_eq_true (List.mem_filter.mp hm).2
      have hyb : companyKey y = b.1 := by
        have hm := mem_processGroup hy
        rw [groupByCompany_filter _ b hb] at hm
        exact of_decide_eq_true (List.mem_filter.mp hm).2
      have hxyne : x ≠ y := by
        intro he
        exact hab (hxa ▸ hyb ▸ congrArg companyKey he)
      have hxP : x ∈ dedupPhase1 l := by
        have hm := mem_processGroup hx
        rw [groupByCompany_filter _ a ha] at hm
        exact (List.mem_filter.mp hm).1
      have hyP : y ∈ dedupPhase1 l := by
        have hm := mem_processGroup hy
        rw [groupByCompany_filter _ b hb] at hm
        exact (List.mem_filter.mp hm).1
      have hsymm : Symmetric (fun p q : Period => p1Key p ≠ p1Key q) :=
        fun _ _ hxy he => hxy he.symm
      exact List.Pairwise.forall hsymm hP hxP hyP hxyne

/-- `processGroup` is idempotent: the kept entries are sorted and free of
mutual containment, so a second pass changes nothing. -/
theorem processGroup_idem (g : List Period) :
    processGroup (processGroup g) = processGroup g := by
  by_cases hlen : g.length ≤ 1
  · have hg : processGroup g = g := by
      rw [processGroup, if_pos hlen]
    rw [hg]
    exact hg
  · have hkept : processGroup g = removeContained (List.insertionSort durGE g) := by
      rw [processGroup, if_neg hlen]
    have hsorted : (removeContained (List.insertionSort durGE g)).Pairwise durGE :=
      List.Pairwise.sublist (removeContained_sublist _)
        (List.sorted_insertionSort durGE g)
    have hpw := removeContained_pairwise (List.insertionSort durGE g)
    rw [hkept]
    by_cases hk1 : (removeContained (List.insertionSort durGE g)).length ≤ 1
    · rw [processGroup, if_pos hk1]
    · rw [processGroup, if_neg hk1, List.Sorted.insertionSort_eq hsorted,
        removeContained_of_pairwise hpw]

/-- Appending a period of the trailing group's key when that key is fresh
for the earlier groups. -/
theorem addToGroups_last (acc : List (String × List Period)) (c : String) (g : List Period)
    (p : Period) (hc : companyKey p = c) (hfresh : c ∉ acc.map Prod.fst) :
    addToGroups (acc ++ [(c, g)]) p = acc ++ [(c, g ++ [p])] := by
  induction acc with
  | nil =>
    simp only [List.nil_append]
    unfold addToGroups
    rw [if_pos hc.symm]
  | cons a rest ih =>
    obtain ⟨c', g'⟩ := a
    have hc' : c' ≠ c := by
      intro he
      exact hfresh (by simp [he])
    simp only [List.cons_append]
    unfold addToGroups
    rw [if_neg (by rw [hc]; exact hc')]
    rw [ih (fun hm => hfresh (by simp at hm ⊢; exact Or.inr hm))]

/-- Folding a whole company-homogeneous block onto its trailing group. -/
theorem foldl_addToGroups_block (b : List Period) :
    ∀ (acc : List (String × List Period)) (c : String) (g : List Period),
    (∀ p ∈ b, companyKey p = c) → c ∉ acc.map Prod.fst →
    b.foldl addToGroups (acc ++ [(c, g)]) = acc ++ [(c, g ++ b)] := by
  induction b with
  | nil => intro acc c g _ _; simp
  | cons p b' ih =>
    intro acc c g hb hfresh
    rw [List.foldl_cons, addToGroups_last acc c g p (hb p (List.mem_cons_self _ _)) hfresh,
      ih acc c (g ++ [p]) (fun q hq => hb q (List.mem_cons_of_mem _ hq)) hfresh,
      List.append_assoc]
    rfl

/-- Regrouping a flattened list of key-distinct company-homogeneous
blocks recovers exactly the non-empty blocks. -/
theorem foldl_addToGroups_flatten (L : List (String × List Period)) :
    ∀ (acc : List (String × List Period)),
    (∀ cg ∈ L, ∀ p ∈ cg.2, companyKey p = cg.1) →
    L.Pairwise (fun a b => a.1 ≠ b.1) →
    (∀ cg ∈ L, cg.1 ∉ acc.map Prod.fst) →
    ((L.map Prod.snd).flatten).foldl addToGroups acc =
      acc ++ L.filter (fun cg => !cg.2.isEmpty) := by
  induction L with
  | nil => intro acc _ _ _; simp
  | cons cg L' ih =>
    intro acc hhom hkeys hfresh
    obtain ⟨c, b⟩ := cg
    obtain ⟨hkh, hkt⟩ := List.pairwise_cons.mp hkeys
    simp only [List.map_cons, List.flatten_cons]
    rw [List.foldl_append]
    cases b with
    | nil =>
      simp only [List.foldl_nil]
      rw [ih acc (fun d hd => hhom d (List.mem_cons_of_mem _ hd)) hkt
        (fun d hd => hfresh d (List.mem_cons_of_mem _ hd))]
      rw [List.filter_cons]
      simp
    | cons p b' =>
      have hc : companyKey p = c := hhom (c, p :: b') (List.mem_cons_self _ _) p
        (List.mem_cons_self _ _)
      have hstep : (p :: b').foldl addToGroups acc = acc ++ [(c, p :: b')] := by
        rw [List.foldl_cons,
          addToGroups_fresh acc p (by rw [hc]; exact hfresh (c, p :: b') (List.mem_cons_self _ _)),
          hc]
        exact foldl_addToGroups_block b' acc c [p]
          (fun q hq => hhom (c, p :: b') (List.mem_cons_self _ _) q (List.mem_cons_of_mem _ hq))
          (hfresh (c, p :: b') (List.mem_cons_self _ _))
      rw [hstep]
      rw [ih (acc ++ [(c, p :: b')]) (fun d hd => hhom d (List.mem_cons_of_mem _ hd)) hkt ?_]
      · rw [List.filter_cons]
        simp only [List.isEmpty_cons, Bool.not_false]
        rw [List.append_assoc]
        rfl
      · intro d hd hm
        rw [List.map_append] at hm
        rcases List.mem_append.mp hm with hm' | hm'
        · exact hfresh d (List.mem_cons_of_mem _ hd) hm'
        · simp at hm'
          exact (hkh d hd) hm'.symm

/-- A deduplicated-shaped list (flattened key-distinct homogeneous blocks
each fixed by `processGroup`, with distinct phase-1 keys) is a fixed
point of the Deduplicator. -/
theorem dedup_of_fixed (D : List Period)
    (hkeys : D.Pairwise (fun p q => p1Key p ≠ p1Key q))
    (L : List (String × List Period))
    (hDL : D = (L.map Prod.snd).flatten)
    (hhom : ∀ cg ∈ L, ∀ p ∈ cg.2, companyKey p = cg.1)
    (hLkeys : L.Pairwise (fun a b => a.1 ≠ b.1))
    (hfix : ∀ cg ∈ L, processGroup cg.2 = cg.2) :
    deduplicateEmploymentPeriods D = D := by
  by_cases hlen2 : D.length ≤ 1
  · unfold deduplicateEmploymentPeriods
    rw [if_pos hlen2]
  · unfold deduplicateEmploymentPeriods
    rw [if_neg hlen2]
    rw [dedupPhase1_id D hkeys]
    have hgrp : groupByCompany D = L.filter (fun cg => !cg.2.isEmpty) := by
      rw [hDL]
      unfold groupByCompany
      rw [foldl_addToGroups_flatten L [] hhom hLkeys (by simp)]
      rfl
    rw [hgrp]
    have hmapeq : (L.filter (fun cg => !cg.2.isEmpty)).map (fun cg => processGroup cg.2) =
        (L.filter (fun cg => !cg.2.isEmpty)).map Prod.snd := by
      apply List.map_congr_left
      intro cg hcg
      exact hfix cg (List.mem_filter.mp hcg).1
    rw [hmapeq]
    have hfm : (L.filter (fun cg => !cg.2.isEmpty)).map Prod.snd =
        (L.map Prod.snd).filter (fun b => !b.isEmpty) := by
      rw [List.filter_map]
      rfl
    rw [hfm, List.flatten_filter_not_isEmpty, ← hDL]

/-- C6: the Deduplicator is idempotent; a second run returns the same
list (hence the same set of periods). -/
theorem c6_dedup_idempotent (l : List Period) :
    deduplicateEmploymentPeriods (deduplicateEmploymentPeriods l) =
      deduplicateEmploymentPeriods l := by
  by_cases hlen : l.length ≤ 1
  · have hD : deduplicateEmploymentPeriods l = l := by
      unfold deduplicateEmploymentPeriods
      rw [if_pos hlen]
    rw [hD]
    exact hD
  · have hD : deduplicateEmploymentPeriods l =
        ((groupByCompany (dedupPhase1 l)).map (fun cg => processGroup cg.2)).flatten := by
      unfold deduplicateEmploymentPeriods
      rw [if_neg hlen]
    refine dedup_of_fixed _ (dedup_pairwise_keys l)
      ((groupByCompany (dedupPhase1 l)).map (fun cg => (cg.1, processGroup cg.2))) ?_ ?_ ?_ ?_
    · rw [hD, List.map_map]
      rfl
    · intro cg hcg p hp
      obtain ⟨d, hd, rfl⟩ := List.mem_map.mp hcg
      have hm : p ∈ d.2 := mem_processGroup hp
      rw [groupByCompany_filter _ d hd] at hm
      exact of_decide_eq_true (List.mem_filter.mp hm).2
    · rw [List.pairwise_map]
      exact (groupByCompany_keys _).imp_of_mem (fun _ _ h => h)
    · intro cg hcg
      obtain ⟨d, hd, rfl⟩ := List.mem_map.mp hcg
      exact processGroup_idem d.2

/-- A list containing two distinct elements has length at least two. -/
theorem two_mem_length {α : Type} {l : List α} {a b : α}
    (ha : a ∈ l) (hb : b ∈ l) (hne : a ≠ b) : 2 ≤ l.length := by
  match l with
  | [] => exact absurd ha (List.not_mem_nil a)
  | [x] =>
    rw [List.mem_singleton] at ha hb
    exact absurd (ha.trans hb.symm) hne
  | x :: y :: rest =>
    simp only [List.length_cons]
    omega

/-- A group of at least two periods that all mutually contain one another
is purged completely. -/
theorem removeContained_all {g : List Period} (hlen : 2 ≤ g.length)
    (hall : ∀ x ∈ g, ∀ y ∈ g, containedIn x y = true) :
    removeContained g = [] := by
  unfold removeContained
  have hfil : g.enum.filter (fun ip =>
      !(g.enum.any (fun jq => !decide (jq.1 = ip.1) && containedIn ip.2 jq.2))) = [] := by
    rw [List.filter_eq_nil_iff]
    intro ip hip
    obtain ⟨i, x⟩ := ip
    obtain ⟨hi, hx⟩ := List.mem_enum hip
    rw [Bool.not_eq_true', Bool.not_eq_false]
    rw [List.any_eq_true]
    have hj : (if i = 0 then 1 else 0) < g.length := by
      split <;> omega
    have hjenum : ((if i = 0 then 1 else 0), g[if i = 0 then 1 else 0]) ∈ g.enum := by
      have hlt : (if i = 0 then 1 else 0) < g.enum.length := by
        rw [List.enum_length]
        exact hj
      have := List.getElem_enum g (if i = 0 then 1 else 0) hlt
      rw [← this]
      exact List.getElem_mem hlt
    refine ⟨_, hjenum, ?_⟩
    rw [Bool.and_eq_true, Bool.not_eq_true', decide_eq_false_iff_not]
    constructor
    · show ¬ (if i = 0 then 1 else 0) = i
      split <;> omega
    · exact hall x (hx ▸ List.getElem_mem hi) _ (List.getElem_mem hj)
  rw [hfil]
  rfl

/-- The three-period input of the C10 counterexample: a same-key period
of a second company precedes the two CompanyA stints. -/
def c10Q : Period :=
  { startDate := 0, endDate := 10, duration := 10, jobTitle := some "dev", company := some "B" }

/-- First CompanyA stint of the C10 counterexample. -/
def c10P1 : Period :=
  { startDate := 0, endDate := 10, duration := 10, jobTitle := some "dev", company := some "A" }

/-- Second CompanyA stint of the C10 counterexample (same dates,
different title). -/
def c10P2 : Period :=
  { startDate := 0, endDate := 10, duration := 10, jobTitle := some "mgr", company := some "A" }

/-- C10, counterexample: company A has exactly the two periods `c10P1`
and `c10P2`, with identical dates and different job titles, yet the stint
appears once in the output: the phase-1 map key ignores the company, so
the earlier company-B period `c10Q` with the same (start, end, title) key
absorbs `c10P1`, leaving `c10P2` alone (hence uncontained) in its group. -/
theorem c10_counterexample :
    deduplicateEmploymentPeriods [c10Q, c10P1, c10P2] = [c10Q, c10P2] ∧
    companyKey c10P2 = "A" := by
  decide

/-- C10, amended: if additionally no other period of the input shares a
phase-1 key with either of the two stints, the Deduplicator removes both,
and no period of that company remains in the output. -/
theorem c10_amended (l : List Period) (p1 p2 : Period) (c : String)
    (h1 : p1 ∈ l) (h2 : p2 ∈ l)
    (hc1 : companyKey p1 = c) (hc2 : companyKey p2 = c)
    (hs : p1.startDate = p2.startDate) (he : p1.endDate = p2.endDate)
    (hk : p1Key p1 ≠ p1Key p2)
    (honly : ∀ q ∈ l, companyKey q = c → q = p1 ∨ q = p2)
    (huniq1 : ∀ q ∈ l, p1Key q = p1Key p1 → q = p1)
    (huniq2 : ∀ q ∈ l, p1Key q = p1Key p2 → q = p2) :
    ∀ q ∈ deduplicateEmploymentPeriods l, companyKey q ≠ c := by
  have hne : p1 ≠ p2 := fun heq => hk (congrArg p1Key heq)
  have hlen : ¬ l.length ≤ 1 := by
    have := two_mem_length h1 h2 hne
    omega
  -- both stints survive phase 1 as themselves
  have hmem1 : p1 ∈ dedupPhase1 l := by
    obtain ⟨e, hel, hek⟩ := foldl_updateEntry_keys l [] p1 (Or.inl h1)
    have hev : e.2 ∈ l := by
      rcases foldl_updateEntry_values l [] e hel with h' | h'
      · exact absurd h' (List.not_mem_nil e)
      · exact h'
    have hekey : e.1 = p1Key e.2 := (foldl_updateEntry_inv l [] (by simp) List.Pairwise.nil).1 e hel
    have : e.2 = p1 := huniq1 e.2 hev (by rw [← hekey, hek])
    rw [← this]
    exact List.mem_map.mpr ⟨e, hel, rfl⟩
  have hmem2 : p2 ∈ dedupPhase1 l := by
    obtain ⟨e, hel, hek⟩ := foldl_updateEntry_keys l [] p2 (Or.inl h2)
    have hev : e.2 ∈ l := by
      rcases foldl_updateEntry_values l [] e hel with h' | h'
      · exact absurd h' (List.not_mem_nil e)
      · exact h'
    have hekey : e.1 = p1Key e.2 := (foldl_updateEntry_inv l [] (by simp) List.Pairwise.nil).1 e hel
    have : e.2 = p2 := huniq2 e.2 hev (by rw [← hekey, hek])
    rw [← this]
    exact List.mem_map.mpr ⟨e, hel, rfl⟩
  intro q hq hqc
  unfold deduplicateEmploymentPeriods at hq
  rw [if_neg hlen] at hq
  obtain ⟨blk, hblk, hqblk⟩ := List.mem_flatten.mp hq
  obtain ⟨cg, hcg, rfl⟩ := List.mem_map.mp hblk
  have hq2 : q ∈ cg.2 := mem_processGroup hqblk
  have hqfil : q ∈ (dedupPhase1 l).filter (fun r => decide (companyKey r = cg.1)) := by
    rw [← groupByCompany_filter _ cg hcg]
    exact hq2
  have hcgc : cg.1 = c := by
    have hqk : companyKey q = cg.1 := of_decide_eq_true (List.mem_filter.mp hqfil).2
    rw [← hqk, hqc]
  -- the company group is exactly the two stints
  have hG : cg.2 = (dedupPhase1 l).filter (fun r => decide (companyKey r = c)) := by
    rw [groupByCompany_filter _ cg hcg, hcgc]
  have hmemG : ∀ x ∈ cg.2, x = p1 ∨ x = p2 := by
    intro x hx
    rw [hG] at hx
    obtain ⟨hxP, hxc⟩ := List.mem_filter.mp hx
    exact honly x (mem_dedupPhase1 _ _ hxP) (of_decide_eq_true hxc)
  have hp1G : p1 ∈ cg.2 := by
    rw [hG]
    exact List.mem_filter.mpr ⟨hmem1, decide_eq_true hc1⟩
  have hp2G : p2 ∈ cg.2 := by
    rw [hG]
    exact List.mem_filter.mpr ⟨hmem2, decide_eq_true hc2⟩
  have hlenG : 2 ≤ cg.2.length := two_mem_length hp1G hp2G hne
  -- all members of the (sorted) group mutually contain one another
  have hall : ∀ x ∈ List.insertionSort durGE cg.2, ∀ y ∈ List.insertionSort durGE cg.2,
      containedIn x y = true := by
    intro x hx y hy
    have hx' := hmemG x ((List.perm_insertionSort durGE cg.2).mem_iff.mp hx)
    have hy' := hmemG y ((List.perm_insertionSort durGE cg.2).mem_iff.mp hy)
    rcases hx' with rfl | rfl <;> rcases hy' with rfl | rfl <;>
      simp [containedIn, hs, he]
  have hempty : processGroup cg.2 = [] := by
    unfold processGroup
    rw [if_neg (by omega)]
    refine removeContained_all ?_ hall
    rw [(List.perm_insertionSort durGE cg.2).length_eq]
    exact hlenG
  rw [hempty] at hqblk
  exact absurd hqblk (List.not_mem_nil q)

/-- Concrete first stint for the C10 witness. -/
def c10W1 : Period :=
  { startDate := 0, endDate := 5, duration := 5, jobTitle := some "dev", company := some "A" }

/-- Concrete second stint for the C10 witness. -/
def c10W2 : Period :=
  { startDate := 0, endDate := 5, duration := 5, jobTitle := some "mgr", company := some "A" }

/-- C10, witness: the amended theorem applied to a concrete two-period
input whose dedup output is empty. -/
theorem c10_witness :
    p1Key c10W1 ≠ p1Key c10W2 ∧
    (∀ q ∈ deduplicateEmploymentPeriods [c10W1, c10W2], companyKey q ≠ "A") :=
  ⟨by decide, c10_amended [c10W1, c10W2] c10W1 c10W2 "A" (by decide) (by decide) (by decide)
    (by decide) (by decide) (by decide) (by decide) (by decide) (by decide) (by decide)⟩

/-- JS `\s` on the ASCII range (the non-ASCII whitespace code points are
not used by any modelled input). -/
def isWsChar (c : Char) : Bool :=
  c == ' ' || c == '\t' || c == '\n' || c == '\r' || c == '\x0b' || c == '\x0c'

/-- Case-insensitive text match of a lowercase pattern at the head of a
character list (models matching a literal under the /i flag). -/
def prefCI : List Char → List Char → Bool
  | [], _ => true
  | _ :: _, [] => false
  | p :: ps, c :: cs => p == c.toLower && prefCI ps cs

/-- Case-insensitive substring search of a lowercase pattern (models an
unanchored /i regex search for a literal). -/
def hasSubCI (sub : List Char) : List Char → Bool
  | [] => sub.isEmpty
  | c :: rest => prefCI sub (c :: rest) || hasSubCI sub rest

/-- The section-heading terminator words of the work-section regex
(source lines 675 and 834). -/
def sectionTerms : List (List Char) :=
  ["education".data, "skills".data, "certification".data, "language".data, "hobbies".data]

/-- The `\n\s*\n` terminator alternative: a newline, then a whitespace
run containing another newline reachable by `\s*`. -/
def blankLineAt : List Char → Bool
  | c :: rest => c == '\n' && (rest.takeWhile (fun d => isWsChar d)).contains '\n'
  | [] => false

/-- The lookahead `(?=education|skills|certification|language|hobbies|\n\s*\n|$)`
of the work-section regex. -/
def termAt (l : List Char) : Bool :=
  sectionTerms.any (fun t => prefCI t l) || blankLineAt l || l.isEmpty

/-- Modelled from the spec words of claim C4: the work-experience section
runs up to the next section heading or the end of the text only; the
blank-line alternative of the source regex is absent. -/
def specTermAt (l : List Char) : Bool :=
  sectionTerms.any (fun t => prefCI t l) || l.isEmpty

/-- Match a case-insensitive literal, returning the rest. -/
def matchLit (pat l : List Char) : Option (List Char) :=
  if prefCI pat l then some (l.drop pat.length) else none

/-- Match `w1\s+w2` case-insensitively (the `\s+` is deterministic: it
takes the maximal whitespace run, as the following literal starts with a
non-whitespace character). -/
def matchTwoWord (w1 w2 l : List Char) : Option (List Char) :=
  if prefCI w1 l then
    (fun r =>
      (fun k =>
        if k = 0 then none
        else
          (fun r2 => if prefCI w2 r2 then some (r2.drop w2.length) else none)
          (r.drop k))
      (r.takeWhile (fun c => isWsChar c)).length)
    (l.drop w1.length)
  else none

/-- The heading alternation
`work\s+experience|employment|professional\s+experience|work\s+history`,
tried in source order; at any one position at most one alternative can
match, since the alternatives diverge at their first characters. -/
def matchHeading (l : List Char) : Option (List Char) :=
  match matchTwoWord "work".data "experience".data l with
  | some r => some r
  | none =>
    match matchLit "employment".data l with
    | some r => some r
    | none =>
      match matchTwoWord "professional".data "experience".data l with
      | some r => some r
      | none => matchTwoWord "work".data "history".data l

/-- The `[:\s]` class of the work-section regex. -/
def isSepChar (c : Char) : Bool := c == ':' || isWsChar c

/-- Lazy group length: the minimal `g ≥ 1` such that the terminator
lookahead holds right after `g` characters (the `([\s\S]+?)` group;
always some for non-empty input since `$` matches at the end). -/
def groupLen : List Char → Option Nat
  | [] => none
  | _ :: rest => if termAt rest then some 1 else (groupLen rest).map Nat.succ

/-- Spec-modelled lazy group length for the claim C4 comparator. -/
def specGroupLen : List Char → Option Nat
  | [] => none
  | _ :: rest => if specTermAt rest then some 1 else (specGroupLen rest).map Nat.succ

/-- Attempt the whole work-section regex at one position: heading, then
the greedy `[:\s]+` run, then the lazy captured group up to the first
terminator.  When the text ends inside the separator run the engine
backtracks one separator character into the group (the only case where
backtracking occurs, since `$` otherwise guarantees the lazy group a
terminator). -/
def matchSectionAt (l : List Char) : Option (List Char) :=
  match matchHeading l with
  | none => none
  | some afterH =>
    (fun k =>
      if k = 0 then none
      else
        (fun body =>
          match groupLen body with
          | some g => some (body.take g)
          | none =>
            if 2 ≤ k then
              match (afterH.take k).getLast? with
              | some ch => some [ch]
              | none => none
            else none)
        (afterH.drop k))
    (afterH.takeWhile isSepChar).length

/-- Spec-modelled variant of `matchSectionAt` for the claim C4
comparator. -/
def specMatchSectionAt (l : List Char) : Option (List Char) :=
  match matchHeading l with
  | none => none
  | some afterH =>
    (fun k =>
      if k = 0 then none
      else
        (fun body =>
          match specGroupLen body with
          | some g => some (body.take g)
          | none =>
            if 2 ≤ k then
              match (afterH.take k).getLast? with
              | some ch => some [ch]
              | none => none
            else none)
        (afterH.drop k))
    (afterH.takeWhile isSepChar).length

/-- The leftmost-match search of the work-section regex: the captured
group of `text.match(/(?:work\s+experience|...)[:\s]+([\s\S]+?)(?=...)/i)`
(source lines 675 and 834). -/
def findWorkSection : List Char → Option (List Char)
  | [] => none
  | c :: rest =>
    match matchSectionAt (c :: rest) with
    | some ws => some ws
    | none => findWorkSection rest

/-- Spec-modelled leftmost-match search for the claim C4 comparator. -/
def specFindWorkSection : List Char → Option (List Char)
  | [] => none
  | c :: rest =>
    match specMatchSectionAt (c :: rest) with
    | some ws => some ws
    | none => specFindWorkSection rest

/-- ASCII digit test. -/
def isDigitChar (c : Char) : Bool := '0' ≤ c && c ≤ '9'

/-- `[a-z]` under the /i flag. -/
def lowerAlpha (c : Char) : Bool := 'a' ≤ c.toLower && c.toLower ≤ 'z'

/-- The value of `parseInt` on a digit string. -/
def natOfDigits (l : List Char) : Nat :=
  l.foldl (fun a c => a * 10 + (c.toNat - 48)) 0

/-- Month index of `new Date(y, m)`: the JS Date constructor normalises
any integer month into the linear month index `y * 12 + m`. -/
def dateYM (y m : Int) : Int := y * 12 + m

/-- The three-letter month name prefixes of the date regex
(source line 1173). -/
def months3 : List (List Char) :=
  ["jan".data, "feb".data, "mar".data, "apr".data, "may".data, "jun".data,
   "jul".data, "aug".data, "sep".data, "oct".data, "nov".data, "dec".data]

/-- Exactly four digits available at the head. -/
def fourDigits (l : List Char) : Bool :=
  (l.take 4).length == 4 && (l.take 4).all isDigitChar

/-- Match `(?:jan|feb|...|dec)[a-z]*\s+\d{4}` at the head, returning the
matched token and the rest (all subparts are deterministic: the greedy
letter and whitespace runs are followed by character classes disjoint
from them). -/
def matchMonthForm (l : List Char) : Option (List Char × List Char) :=
  if months3.any (fun m => prefCI m l) then
    (fun letters =>
      (fun r2 =>
        (fun ws =>
          if ws.isEmpty then none
          else
            (fun r3 =>
              if fourDigits r3 then
                some (l.take (3 + letters.length + ws.length + 4), r3.drop 4)
              else none)
            (r2.drop ws.length))
        (r2.takeWhile (fun c => isWsChar c)))
      ((l.drop 3).drop letters.length))
    ((l.drop 3).takeWhile (fun c => lowerAlpha c))
  else none

/-- Match `\d{1,2}\/\d{4}` at the head (greedy: two digits tried before
one). -/
def matchMMYYYY (l : List Char) : Option (List Char × List Char) :=
  match l with
  | a :: b :: c :: rest =>
    if isDigitChar a && isDigitChar b && c == '/' && fourDigits rest then
      some ([a, b, c] ++ rest.take 4, rest.drop 4)
    else if isDigitChar a && b == '/' && fourDigits (c :: rest) then
      some ([a, b] ++ (c :: rest).take 4, (c :: rest).drop 4)
    else none
  | _ => none

/-- The first alternation of the date regex (month form, then numeric
form; their first characters are disjoint). -/
def matchG1 (l : List Char) : Option (List Char × List Char) :=
  match matchMonthForm l with
  | some r => some r
  | none => matchMMYYYY l

/-- The second alternation of the date regex, which additionally accepts
`present` and `current` (case-insensitive), in source order. -/
def matchG2 (l : List Char) : Option (List Char × List Char) :=
  match matchMonthForm l with
  | some r => some r
  | none =>
    match matchMMYYYY l with
    | some r => some r
    | none =>
      if prefCI "present".data l then some (l.take 7, l.drop 7)
      else if prefCI "current".data l then some (l.take 7, l.drop 7)
      else none

/-- The `[-–—to]` class of the date regex under /i (the letters also
match upper case). -/
def isSepTokChar (c : Char) : Bool :=
  c == '-' || c == '–' || c == '—' || c.toLower == 't' || c.toLower == 'o'

/-- Backtracking over the greedy separator-class run: try consuming `k`
separator characters (longest first), then the second `\s*` (maximal, as
the following token starts with a non-whitespace character), then the
second date token. -/
def trySep (r : List Char) : Nat → Option (List Char × List Char)
  | 0 => matchG2 (r.dropWhile isWsChar)
  | k + 1 =>
    match matchG2 ((r.drop (k + 1)).dropWhile isWsChar) with
    | some res => some res
    | none => trySep r k

/-- Attempt the whole date-range regex of `parseEmploymentEntry`
(source line 1173) at one position, returning the two captured tokens. -/
def matchDateRangeAt (l : List Char) : Option (List Char × List Char) :=
  match matchG1 l with
  | none => none
  | some (tok1, rest) =>
    (fun r =>
      match trySep r (r.takeWhile isSepTokChar).length with
      | some (tok2, _) => some (tok1, tok2)
      | none => none)
    (rest.dropWhile isWsChar)

/-- The unanchored leftmost search `dateRange.match(/.../i)` of
`parseEmploymentEntry`. -/
def dateSearch : List Char → Option (List Char × List Char)
  | [] => none
  | c :: rest =>
    match matchDateRangeAt (c :: rest) with
    | some res => some res
    | none => dateSearch rest

/-- `getMonthIndex` (source lines 965-974): dictionary lookup on the
lower-cased word with default 0 (`months[monthStr.toLowerCase()] || 0`;
January is itself 0, so the `|| 0` collapses undefined and January). -/
def getMonthIndex (m : List Char) : Nat :=
  (((([("january".data, 0), ("february".data, 1), ("march".data, 2), ("april".data, 3),
      ("may".data, 4), ("june".data, 5), ("july".data, 6), ("august".data, 7),
      ("september".data, 8), ("october".data, 9), ("november".data, 10),
      ("december".data, 11), ("jan".data, 0), ("feb".data, 1), ("mar".data, 2),
      ("apr".data, 3), ("jun".data, 5), ("jul".data, 6), ("aug".data, 7),
      ("sep".data, 8), ("sept".data, 8), ("oct".data, 9), ("nov".data, 10),
      ("dec".data, 11)] : List (List Char × Nat)).find?
    (fun e => e.1 == m.map Char.toLower)).map Prod.snd).getD 0)

/-- The anchored re-test `^\d{1,2}\/\d{4}$` on a captured token
(source lines 1183 and 1196). -/
def isMMYYYYTok (t : List Char) : Bool :=
  (fun d =>
    (fun y =>
      (d.length == 1 || d.length == 2) && d.all isDigitChar &&
        ((t.drop d.length).take 1 == ['/']) && y.length == 4 && y.all isDigitChar)
    (t.drop (d.length + 1)))
  (t.takeWhile (fun c => !(c == '/')))

/-- Parse one captured date token the way `parseEmploymentEntry` does:
numeric `MM/YYYY` becomes `new Date(year, month - 1)`, otherwise the
token is split on whitespace into a month word (looked up with default
January) and a year (source lines 1183-1206). -/
def parseTok (t : List Char) : Int :=
  if isMMYYYYTok t then
    (fun d => dateYM (natOfDigits (t.drop (d.length + 1))) ((natOfDigits d : Int) - 1))
    (t.takeWhile (fun c => !(c == '/')))
  else
    (fun w => dateYM (natOfDigits ((t.drop w.length).dropWhile isWsChar)) (getMonthIndex w))
    (t.takeWhile (fun c => !isWsChar c))

/-- The unanchored test `endDateStr.match(/present|current/i)`. -/
def isPresentTok (t : List Char) : Bool :=
  hasSubCI "present".data t || hasSubCI "current".data t

/-- `parseEmploymentEntry` (source lines 1171-1222): search the date
range for the two tokens, resolve them to month indices (`present` and
`current` resolve to `now`), reject inverted ranges, and build the
period.  The `isNaN` guards of the source can never fire on values built
by these constructors and are dropped; `originalText`/`context` are not
modelled (nothing reads them). -/
def parseEmploymentEntry (position company dateRange : List Char) (now : Int) : Option Period :=
  match dateSearch dateRange with
  | none => none
  | some (t1, t2) =>
    (fun startDate =>
      (fun endDate =>
        if startDate > endDate then none
        else some
          { startDate := startDate, endDate := endDate
            duration := calculateDuration startDate endDate
            jobTitle := some ⟨position⟩, company := some ⟨company⟩ })
      (if isPresentTok t2 then now else parseTok t2))
    (parseTok t1)

/-- JS `.` (matches everything except line terminators; the astral
separators U+2028/9 do not occur in modelled inputs). -/
def isDotChar (c : Char) : Bool := !(c == '\n' || c == '\r')

/-- JS `String.prototype.trim` on the modelled whitespace. -/
def trimChars (l : List Char) : List Char :=
  ((l.dropWhile isWsChar).reverse.dropWhile isWsChar).reverse

/-- The bullet-line test of the extractor (source line 847). -/
def isBullet : List Char → Bool
  | c :: _ => c == '-' || c == '•' || c == '*'
  | [] => false

/-- Lazy split at `\s*\|`: the minimal non-empty dot-character group
followed (after a maximal whitespace run, deterministic since `|` is not
whitespace) by a literal pipe; returns the group and the text after the
pipe. -/
def splitPipe : List Char → Option (List Char × List Char)
  | [] => none
  | c :: rest =>
    if isDotChar c then
      match rest.dropWhile isWsChar with
      | '|' :: r2 => some ([c], r2)
      | _ =>
        match splitPipe rest with
        | some (g, r) => some (c :: g, r)
        | none => none
    else none

/-- Lazy split at a literal comma (no whitespace allowed before it in the
source pattern). -/
def splitComma : List Char → Option (List Char × List Char)
  | [] => none
  | c :: rest =>
    if isDotChar c then
      match rest with
      | ',' :: r2 => some ([c], r2)
      | _ =>
        match splitComma rest with
        | some (g, r) => some (c :: g, r)
        | none => none
    else none

/-- Lazy split at `\s*\(`. -/
def splitParen : List Char → Option (List Char × List Char)
  | [] => none
  | c :: rest =>
    if isDotChar c then
      match rest.dropWhile isWsChar with
      | '(' :: r2 => some ([c], r2)
      | _ =>
        match splitParen rest with
        | some (g, r) => some (c :: g, r)
        | none => none
    else none

/-- Greedy `\s*` before a lazy group: try skipping `k` characters
(longest run first) before running the splitter. -/
def tryDrops (f : List Char → Option (List Char × List Char)) (r : List Char) :
    Nat → Option (List Char × List Char)
  | 0 => f r
  | k + 1 =>
    match f (r.drop (k + 1)) with
    | some res => some res
    | none => tryDrops f r k

/-- The trailing `\s*(.+)$`: a greedy whitespace skip (backtracking one
character at a time) followed by the greedy rest-of-line group. -/
def lastGroup (r : List Char) : Nat → Option (List Char)
  | 0 => if !r.isEmpty && r.all isDotChar then some r else none
  | k + 1 =>
    if !(r.drop (k + 1)).isEmpty && (r.drop (k + 1)).all isDotChar then some (r.drop (k + 1))
    else lastGroup r k

/-- The pipe line format `^(.+?)\s*\|\s*(.+?)\s*\|\s*(.+)$`
(source line 854). -/
def pipeFormat (l : List Char) : Option (List Char × List Char × List Char) :=
  match splitPipe l with
  | none => none
  | some (g1, r2) =>
    match tryDrops splitPipe r2 (r2.takeWhile isWsChar).length with
    | none => none
    | some (g2, r3) =>
      match lastGroup r3 (r3.takeWhile isWsChar).length with
      | none => none
      | some g3 => some (g1, g2, g3)

/-- Lazy split at `\s+at\s+` (case-insensitive `at`; both whitespace runs
are deterministic maximal, and a failed boundary extends the lazy
group). -/
def splitAtWord : List Char → Option (List Char × List Char)
  | [] => none
  | c :: rest =>
    if isDotChar c then
      let w1 := rest.takeWhile isWsChar
      let a1 := rest.drop w1.length
      let boundary : Option (List Char × List Char) :=
        if !w1.isEmpty && prefCI "at".data a1 then
          let a2 := a1.drop 2
          let w2 := a2.takeWhile isWsChar
          if !w2.isEmpty then some ([c], a2.drop w2.length) else none
        else none
      match boundary with
      | some res => some res
      | none =>
        match splitAtWord rest with
        | some (g, r) => some (c :: g, r)
        | none => none
    else none

/-- The `(.+?)\)$` tail of the at-format: the group must reach the last
character of the line, which must be the closing parenthesis. -/
def atTail (r2 : List Char) : Option (List Char) :=
  match r2.getLast? with
  | some ch =>
    if ch == ')' then
      if !r2.dropLast.isEmpty && r2.dropLast.all isDotChar then some r2.dropLast else none
    else none
  | none => none

/-- The at line format `^(.+?)\s+at\s+(.+?)\s*\((.+?)\)$/i`
(source line 865). -/
def atFormat (l : List Char) : Option (List Char × List Char × List Char) :=
  match splitAtWord l with
  | none => none
  | some (g1, afterAt) =>
    match splitParen afterAt with
    | none => none
    | some (g2, r2) =>
      match atTail r2 with
      | none => none
      | some g3 => some (g1, g2, g3)

/-- The comma line format `^(.+?),\s*(.+?),\s*(.+)$` (source line 876). -/
def commaFormat (l : List Char) : Option (List Char × List Char × List Char) :=
  match splitComma l with
  | none => none
  | some (g1, r2) =>
    match tryDrops splitComma r2 (r2.takeWhile isWsChar).length with
    | none => none
    | some (g2, r3) =>
      match lastGroup r3 (r3.takeWhile isWsChar).length with
      | none => none
      | some g3 => some (g1, g2, g3)

/-- Processing of one (already trimmed) line of the work section
(source lines 843-885): bullets are skipped, then the pipe, at and comma
formats are tried in order; a format whose date range fails to parse
falls through to the next format, mirroring the `if (entry)` guards. -/
def lineEntry (line : List Char) (now : Int) : Option Period :=
  if isBullet line then none
  else
    match (match pipeFormat line with
           | some (p, c, d) => parseEmploymentEntry (trimChars p) (trimChars c) (trimChars d) now
           | none => none) with
    | some e => some e
    | none =>
      match (match atFormat line with
             | some (p, c, d) => parseEmploymentEntry (trimChars p) (trimChars c) (trimChars d) now
             | none => none) with
      | some e => some e
      | none =>
        match commaFormat line with
        | some (p, c, d) => parseEmploymentEntry (trimChars p) (trimChars c) (trimChars d) now
        | none => none

/-- The per-line loop of the extractor: each line contributes at most one
entry, in order. -/
def extractFromLines (lines : List (List Char)) (now : Int) : List Period :=
  lines.filterMap (fun line => lineEntry (trimChars line) now)

/-- `extractStructuredEmploymentEntries` (source lines 830-889): locate
the work section, split it into non-blank lines, and process each line. -/
def extractStructuredEmploymentEntries (text : List Char) (now : Int) : List Period :=
  match findWorkSection text with
  | none => []
  | some ws =>
    extractFromLines ((ws.splitOn '\n').filter (fun line => !(trimChars line).isEmpty)) now

/-- C8: the entry parser is a total function into `Option`: a date range
in which the date regex finds no match yields no entry, a parsed pair
with start after end yields no entry, and a line that yields no entry
leaves the entries produced from the other lines unchanged. -/
theorem c8_parse_robust :
    (∀ (p c d : List Char) (now : Int), dateSearch d = none →
        parseEmploymentEntry p c d now = none) ∧
    (∀ (p c d : List Char) (now : Int) (t1 t2 : List Char),
        dateSearch d = some (t1, t2) →
        (if isPresentTok t2 then now else parseTok t2) < parseTok t1 →
        parseEmploymentEntry p c d now = none) ∧
    (∀ (xs ys : List (List Char)) (line : List Char) (now : Int),
        lineEntry (trimChars line) now = none →
        extractFromLines (xs ++ line :: ys) now =
          extractFromLines xs now ++ extractFromLines ys now) := by
  refine ⟨?_, ?_, ?_⟩
  · intro p c d now h
    unfold parseEmploymentEntry
    rw [h]
  · intro p c d now t1 t2 h hlt
    unfold parseEmploymentEntry
    rw [h]
    exact if_pos hlt
  · intro xs ys line now h
    simp [extractFromLines, List.filterMap_append, List.filterMap_cons, h]

/-- C8, witness: a date range without any recognizable date yields no
entry, and a line yielding no entry leaves the other lines' results
untouched. -/
theorem c8_witness :
    parseEmploymentEntry "Dev".data "Acme".data "no dates in this text".data 0 = none ∧
    extractFromLines ["Dev | Acme | 01/2020 - 03/2021".data, "hello world".data] 5 =
      extractFromLines ["Dev | Acme | 01/2020 - 03/2021".data] 5 ++
        extractFromLines ([] : List (List Char)) 5 :=
  ⟨c8_parse_robust.1 "Dev".data "Acme".data "no dates in this text".data 0 (by decide),
   c8_parse_robust.2.2 ["Dev | Acme | 01/2020 - 03/2021".data] [] "hello world".data 5
     (by decide)⟩

/-- The two-digit rendering of a month number 10-99. -/
def renderMM (m : Nat) : List Char := [Nat.digitChar (m / 10), Nat.digitChar (m % 10)]

/-- C9: a `MM/YYYY` fragment whose month exceeds 12 is not rejected: the
regex accepts any one- or two-digit month field, `new Date(year, m - 1)`
normalises it into later years, and the entry is produced with the
normalized start date (at least 2021 for year field 2020). -/
theorem c9_month_overflow (m : Nat) (h1 : 13 ≤ m) (h2 : m ≤ 99) (now : Int) :
    parseEmploymentEntry "Engineer".data "Acme".data
        (renderMM m ++ "/2020 - 12/2028".data) now =
      some { startDate := dateYM 2020 ((m : Int) - 1), endDate := dateYM 2028 11
             duration := dateYM 2028 11 - dateYM 2020 ((m : Int) - 1)
             jobTitle := some "Engineer", company := some "Acme" } ∧
    dateYM 2020 ((m : Int) - 1) =
      dateYM (2020 + ((m : Int) - 1) / 12) (((m : Int) - 1) % 12) ∧
    2021 ≤ 2020 + ((m : Int) - 1) / 12 := by
  interval_cases m <;> exact ⟨rfl, by decide, by decide⟩

/-- C9, witness: the month-13 fragment parses to January 2021. -/
theorem c9_witness :
    13 ≤ 13 ∧ 13 ≤ 99 ∧
    (parseEmploymentEntry "Engineer".data "Acme".data
        (renderMM 13 ++ "/2020 - 12/2028".data) 0 =
      some { startDate := dateYM 2020 ((13 : Int) - 1), endDate := dateYM 2028 11
             duration := dateYM 2028 11 - dateYM 2020 ((13 : Int) - 1)
             jobTitle := some "Engineer", company := some "Acme" } ∧
    dateYM 2020 ((13 : Int) - 1) =
      dateYM (2020 + ((13 : Int) - 1) / 12) (((13 : Int) - 1) % 12) ∧
    2021 ≤ 2020 + ((13 : Int) - 1) / 12) :=
  ⟨by decide, by decide, c9_month_overflow 13 (by decide) (by decide) 0⟩

theorem matchLit_drop {pat l r : List Char} (h : matchLit pat l = some r) :
    ∃ n, r = l.drop n := by
  unfold matchLit at h
  by_cases h1 : prefCI pat l = true
  · rw [if_pos h1] at h
    injection h with h
    exact ⟨pat.length, h.symm⟩
  · rw [if_neg h1] at h
    exact absurd h (by simp)

theorem matchTwoWord_drop {w1 w2 l r : List Char} (h : matchTwoWord w1 w2 l = some r) :
    ∃ n, r = l.drop n := by
  unfold matchTwoWord at h
  by_cases h1 : prefCI w1 l = true
  · rw [if_pos h1] at h
    simp only at h
    by_cases h2 : ((l.drop w1.length).takeWhile (fun c => isWsChar c)).length = 0
    · rw [if_pos h2] at h
      exact absurd h (by simp)
    · rw [if_neg h2] at h
      by_cases h3 : prefCI w2 ((l.drop w1.length).drop
          ((l.drop w1.length).takeWhile (fun c => isWsChar c)).length) = true
      · rw [if_pos h3] at h
        injection h with h
        refine ⟨w1.length + ((l.drop w1.length).takeWhile (fun c => isWsChar c)).length
          + w2.length, ?_⟩
        rw [← h, List.drop_drop, List.drop_drop]
        congr 1
        omega
      · rw [if_neg h3] at h
        exact absurd h (by simp)
  · rw [if_neg h1] at h
    exact absurd h (by simp)

/-- A successful heading match consumes a prefix of the text. -/
theorem matchHeading_split {l r : List Char} (h : matchHeading l = some r) :
    ∃ hd, l = hd ++ r := by
  have hdrop : ∃ n, r = l.drop n := by
    unfold matchHeading at h
    cases h1 : matchTwoWord "work".data "experience".data l with
    | some r' =>
      rw [h1] at h
      injection h with h
      subst h
      exact matchTwoWord_drop h1
    | none =>
      rw [h1] at h
      cases h2 : matchLit "employment".data l with
      | some r' =>
        rw [h2] at h
        injection h with h
        subst h
        exact matchLit_drop h2
      | none =>
        rw [h2] at h
        cases h3 : matchTwoWord "professional".data "experience".data l with
        | some r' =>
          rw [h3] at h
          injection h with h
          subst h
          exact matchTwoWord_drop h3
        | none =>
          rw [h3] at h
          exact matchTwoWord_drop h
  obtain ⟨n, rfl⟩ := hdrop
  exact ⟨l.take n, (List.take_append_drop n l).symm⟩

theorem groupLen_none : ∀ {l : List Char}, groupLen l = none → l = [] := by
  intro l
  induction l with
  | nil => intro _; rfl
  | cons c rest ih =>
    intro h
    unfold groupLen at h
    by_cases ht : termAt rest = true
    · rw [if_pos ht] at h
      exact absurd h (by simp)
    · rw [if_neg ht] at h
      cases hg : groupLen rest with
      | some g =>
        rw [hg] at h
        exact absurd h (by simp)
      | none =>
        have hrest : rest = [] := ih hg
        subst hrest
        exact absurd (by decide : termAt [] = true) ht

/-- The lazy group length is the first position (at least one) whose
suffix satisfies the terminator lookahead. -/
theorem groupLen_spec : ∀ (l : List Char) (g : Nat), groupLen l = some g →
    1 ≤ g ∧ g ≤ l.length ∧ termAt (l.drop g) = true ∧
    ∀ k, 1 ≤ k → k < g → termAt (l.drop k) = false := by
  intro l
  induction l with
  | nil => intro g h; exact absurd h (by simp [groupLen])
  | cons c rest ih =>
    intro g h
    unfold groupLen at h
    by_cases ht : termAt rest = true
    · rw [if_pos ht] at h
      injection h with h
      subst h
      refine ⟨le_refl 1, by simp, by simpa using ht, ?_⟩
      intro k h1 h2
      omega
    · rw [if_neg ht] at h
      cases hg : groupLen rest with
      | none =>
        rw [hg] at h
        exact absurd h (by simp)
      | some g' =>
        rw [hg] at h
        simp only [Option.map_some'] at h
        injection h with h
        subst h
        obtain ⟨a1, a2, a3, a4⟩ := ih g' hg
        refine ⟨by omega, by simp only [List.length_cons]; omega, by simpa using a3, ?_⟩
        intro k h1 h2
        cases k with
        | zero => omega
        | succ k' =>
          cases Nat.eq_zero_or_pos k' with
          | inl hz =>
            subst hz
            have : termAt rest = false := by
              revert ht
              cases termAt rest <;> simp
            simpa using this
          | inr hpos =>
            have := a4 k' (by omega) (by omega)
            simpa using this

/-- Splicing the lazy group back into its list. -/
theorem take_drop_glue {α : Type} (body : List α) (g k : Nat) (hk : k ≤ g) :
    (body.take g).drop k ++ body.drop g = body.drop k := by
  rw [List.drop_take]
  have hdd : body.drop g = (body.drop k).drop (g - k) := by
    rw [List.drop_drop]
    congr 1
    omega
  rw [hdd, List.take_append_drop]

theorem takeWhile_append_drop {α : Type} (p : α → Bool) (l : List α) :
    l.takeWhile p ++ l.drop (l.takeWhile p).length = l := by
  conv_rhs => rw [← List.take_append_drop (l.takeWhile p).length l]
  congr 1
  exact List.prefix_iff_eq_take.mp (List.takeWhile_prefix _)

/-- Structure of a successful section match at one position: a heading,
a non-empty separator run, the captured group, and a suffix at which the
terminator lookahead holds, with no terminator strictly inside the
group. -/
theorem matchSectionAt_spec {l ws : List Char} (h : matchSectionAt l = some ws) :
    ∃ hd s suf, l = hd ++ (s ++ (ws ++ suf)) ∧
      matchHeading l = some (s ++ (ws ++ suf)) ∧
      s.all isSepChar = true ∧ s ≠ [] ∧ ws ≠ [] ∧
      termAt suf = true ∧
      (∀ k, 1 ≤ k → k < ws.length → termAt (ws.drop k ++ suf) = false) := by
  unfold matchSectionAt at h
  cases hh : matchHeading l with
  | none =>
    rw [hh] at h
    exact absurd h (by simp)
  | some afterH =>
    rw [hh] at h
    simp only at h
    have hsw : afterH.takeWhile isSepChar = afterH.take (afterH.takeWhile isSepChar).length :=
      List.prefix_iff_eq_take.mp (List.takeWhile_prefix _)
    have hsall : (afterH.takeWhile isSepChar).all isSepChar = true :=
      List.all_eq_true.mpr (fun x hx => List.mem_takeWhile_imp hx)
    by_cases hk0 : (afterH.takeWhile isSepChar).length = 0
    · rw [if_pos hk0] at h
      exact absurd h (by simp)
    · rw [if_neg hk0] at h
      obtain ⟨hd, hhd⟩ := matchHeading_split hh
      cases hg : groupLen (afterH.drop (afterH.takeWhile isSepChar).length) with
      | some g =>
        rw [hg] at h
        injection h with h
        obtain ⟨a1, a2, a3, a4⟩ := groupLen_spec _ g hg
        have hbodyeq : afterH = afterH.takeWhile isSepChar ++
            (ws ++ (afterH.drop (afterH.takeWhile isSepChar).length).drop g) := by
          rw [← h, List.take_append_drop]
          exact (takeWhile_append_drop isSepChar afterH).symm
        refine ⟨hd, afterH.takeWhile isSepChar,
          (afterH.drop (afterH.takeWhile isSepChar).length).drop g, ?_, ?_, hsall, ?_, ?_, a3, ?_⟩
        · exact hhd.trans (congrArg (fun z => hd ++ z) hbodyeq)
        · exact congrArg Option.some hbodyeq
        · intro he
          rw [he] at hk0
          exact hk0 rfl
        · intro he
          rw [← h] at he
          have : ((afterH.drop (afterH.takeWhile isSepChar).length).take g).length = g := by
            rw [List.length_take]
            omega
          rw [he] at this
          simp at this
          omega
        · intro k h1 h2
          rw [← h] at h2 ⊢
          have hlen : ((afterH.drop (afterH.takeWhile isSepChar).length).take g).length = g := by
            rw [List.length_take]
            omega
          rw [hlen] at h2
          rw [take_drop_glue _ g k (by omega)]
          exact a4 k h1 h2
      | none =>
        rw [hg] at h
        have hbody : afterH.drop (afterH.takeWhile isSepChar).length = [] := groupLen_none hg
        by_cases hk2 : 2 ≤ (afterH.takeWhile isSepChar).length
        · rw [if_pos hk2] at h
          cases hlast : (afterH.take (afterH.takeWhile isSepChar).length).getLast? with
          | none =>
            rw [hlast] at h
            exact absurd h (by simp)
          | some ch =>
            rw [hlast] at h
            injection h with h
            obtain ⟨l', hl'⟩ := List.getLast?_eq_some_iff.mp hlast
            have hafter : afterH = afterH.take (afterH.takeWhile isSepChar).length := by
              conv_lhs => rw [← List.take_append_drop (afterH.takeWhile isSepChar).length afterH]
              rw [hbody, List.append_nil]
            have hae : afterH = l' ++ (ws ++ []) := by
              rw [List.append_nil, ← h]
              conv_lhs => rw [hafter]
              exact hl'
            refine ⟨hd, l', [], ?_, ?_, ?_, ?_, ?_, by decide, ?_⟩
            · exact hhd.trans (congrArg (fun z => hd ++ z) hae)
            · exact congrArg Option.some hae
            · rw [List.all_eq_true]
              intro x hx
              have hx' : x ∈ afterH.takeWhile isSepChar := by
                rw [hsw, hl']
                exact List.mem_append_left _ hx
              exact List.mem_takeWhile_imp hx'
            · intro he
              subst he
              have : (afterH.take (afterH.takeWhile isSepChar).length).length =
                  (afterH.takeWhile isSepChar).length := by
                rw [← hsw]
              rw [hl'] at this
              simp at this
              omega
            · rw [← h]
              exact List.cons_ne_nil ch []
            · intro k h1 h2
              rw [← h] at h2
              simp at h2
              omega
        · rw [if_neg hk2] at h
          exact absurd h (by simp)

/-- C4, counterexample: with the text
`employment: abc(newline)(newline)def education` the source regex stops
the captured work section at the blank line, keeping only `abc`, while
the claim (section heading or end of text only) extends it to
`abc(newline)(newline)def `: the character `d` lies between the heading
and the education terminator but is not in the captured slice. -/
theorem c4_counterexample :
    findWorkSection "employment: abc\n\ndef education".data = some "abc".data ∧
    specFindWorkSection "employment: abc\n\ndef education".data = some "abc\n\ndef ".data := by
  constructor
  · decide
  · decide

/-- C4, amended: the captured work-experience section starts after the
heading match and its separator run, and extends exactly up to the first
subsequent terminator, where the terminators are the five section-heading
words, a blank line (`\n\s*\n`), or the end of the text; every character
before that first terminator belongs to the section. -/
theorem c4_amended (t ws : List Char) (h : findWorkSection t = some ws) :
    ∃ pre hd s suf, t = pre ++ (hd ++ (s ++ (ws ++ suf))) ∧
      matchHeading (hd ++ (s ++ (ws ++ suf))) = some (s ++ (ws ++ suf)) ∧
      s.all isSepChar = true ∧ s ≠ [] ∧ ws ≠ [] ∧
      termAt suf = true ∧
      (∀ k, 1 ≤ k → k < ws.length → termAt (ws.drop k ++ suf) = false) := by
  induction t with
  | nil => exact absurd h (by simp [findWorkSection])
  | cons c rest ih =>
    unfold findWorkSection at h
    cases hm : matchSectionAt (c :: rest) with
    | some ws' =>
      rw [hm] at h
      injection h with h
      subst h
      obtain ⟨hd, s, suf, he, hmh, p1, p2, p3, p4, p5⟩ := matchSectionAt_spec hm
      refine ⟨[], hd, s, suf, by simpa using he, ?_, p1, p2, p3, p4, p5⟩
      rw [← he]
      exact hmh
    | none =>
      rw [hm] at h
      obtain ⟨pre, hd, s, suf, he, hmh, p1, p2, p3, p4, p5⟩ := ih h
      refine ⟨c :: pre, hd, s, suf, ?_, hmh, p1, p2, p3, p4, p5⟩
      rw [List.cons_append, ← he]

/-- C4, witness: the characterization applied to a concrete text whose
section is terminated by the skills heading. -/
theorem c4_witness :
    ∃ pre hd s suf,
      "employment: jobs skills".data = pre ++ (hd ++ (s ++ ("jobs ".data ++ suf))) ∧
      matchHeading (hd ++ (s ++ ("jobs ".data ++ suf))) = some (s ++ ("jobs ".data ++ suf)) ∧
      s.all isSepChar = true ∧ s ≠ [] ∧ "jobs ".data ≠ [] ∧
      termAt suf = true ∧
      (∀ k, 1 ≤ k → k < "jobs ".data.length → termAt ("jobs ".data.drop k ++ suf) = false) :=
  c4_amended "employment: jobs skills".data "jobs ".data (by decide)

/-- C1, counterexample: on the two CompanyA periods Jan 2018 - Dec 2019 and
Mar 2018 - Jun 2018 the Interval Aggregator reports 23 months, not the
claimed 24: `calculateDuration` counts month-boundary differences
(`(2019 - 2018) * 12 + (11 - 0) = 23`), not inclusive calendar months. -/
theorem c1_counterexample :
    calculateTotalExperience (deduplicateEmploymentPeriods [c1P1, c1P2]) ≠ 24 := by
  decide

/-- C1, amended: the Deduplicator removes the second (contained) period and
the Interval Aggregator then reports a total experience of 23 months. -/
theorem c1_amended_scenario :
    deduplicateEmploymentPeriods [c1P1, c1P2] = [c1P1] ∧
    calculateTotalExperience (deduplicateEmploymentPeriods [c1P1, c1P2]) = 23 := by
  decide
